import Mathlib

/-! protocol_reverser: the payload-obfuscation pipeline

A shallow embedding of `obfuscator/obfuscator.go` and the properties of its
stages: padding, CBC encryption, jitter, chunking and frame assembly.

Conventions of the embedding
* a Go `[]byte` is a `List Nat`; a conversion `byte(x)` is written `x % 256`
  and `uint32(x)` is written `x % 2 ^ 32`;
* a Go call either returns, panics or never returns: `Run`;
* a Go result pair `([]byte, error)` is a pair of options (`none` is `nil`);
* `rand.Reader` is an explicit value threaded through the calls;
* where a call can write to memory that exists before it, slices are positions
  in a store of backing arrays (`GoSlice`, `Mem`);
* the AES block function of `crypto/aes` is a parameter `E key block`.
-/

/-! ## Part 1. Definitions -/

/-- A byte string, the Go type `[]byte`. -/
abbrev Bytes := List Nat

/-- How a Go call ends: it returns a value, it panics, or it never returns. -/
inductive Run (α : Type) where
  | ret (a : α)
  | panic
  | diverge
  deriving DecidableEq, Repr

/-- The error values that can reach the obfuscator. -/
inductive GoError where
  /-- The value `aes.KeySizeError(n)` returned by `aes.NewCipher`. -/
  | keySizeError (n : Nat)
  /-- The error of `io.ReadFull` when the reader delivered too few bytes. -/
  | readError
  deriving DecidableEq, Repr

/-- The Go expression `data[i:e]` for `i ≤ e ≤ len(data)`. -/
def subslice (data : Bytes) (i e : Nat) : Bytes :=
  (data.drop i).take (e - i)

/-- The effect of `copy(dst, src)` on `dst`: the first `min(len(dst), len(src))`
bytes are overwritten, the rest of `dst` is kept. -/
def copyInto (dst src : Bytes) : Bytes :=
  src.take dst.length ++ dst.drop src.length

/-- The type `Obfuscator` with its two private fields. -/
structure Obfuscator where
  key : Bytes
  iv : Bytes
  deriving DecidableEq, Repr

/-- The state of `rand.Reader`: for each coming `io.ReadFull` call, the bytes
the reader is able to deliver during that call. -/
abbrev RandReader := List Bytes

/-- The call `io.ReadFull(rand.Reader, buf)`: the delivered bytes overwrite the
front of `buf`; the call reports an error when fewer than `len(buf)` bytes were
delivered, and then the rest of `buf` keeps its old contents. -/
def readFull (rng : RandReader) (buf : Bytes) : Bytes × Option GoError × RandReader :=
  match rng with
  | [] => (buf, if 0 < buf.length then some GoError.readError else none, [])
  | d :: rest =>
    (copyInto buf d,
     if d.length < buf.length then some GoError.readError else none,
     rest)

/-- The loop of `splitIntoChunks`: `i` is the loop variable, `chunks` the slice
built so far. One unit of `fuel` is spent per iteration; `none` means that the
iterations did not end within the fuel. -/
def splitLoop (data : Bytes) (chunkSize : Nat) : Nat → Nat → List Bytes → Option (List Bytes)
  | 0, i, chunks => if i < data.length then none else some chunks
  | fuel + 1, i, chunks =>
    if i < data.length then
      let e := if i + chunkSize > data.length then data.length else i + chunkSize
      splitLoop data chunkSize fuel (i + chunkSize) (chunks ++ [subslice data i e])
    else some chunks

/-- The method `splitIntoChunks` for a chunk size `chunkSize ≥ 0`. A loop that
has not ended after `len(data)` iterations never ends (this happens exactly
when `chunkSize = 0` and `data` is not empty), so the result is `Run.diverge`. -/
def Obfuscator.splitIntoChunks (_o : Obfuscator) (data : Bytes) (chunkSize : Nat) :
    Run (List Bytes) :=
  match splitLoop data chunkSize data.length 0 [] with
  | some chunks => Run.ret chunks
  | none => Run.diverge

/-- The constant `marker` of `assembleWithMarkers`. -/
def marker : Bytes := [0xDE, 0xAD, 0xBE, 0xEF]

/-- The call `binary.BigEndian.PutUint32(b, v)` on a fresh 4-byte `b`, for a
`uint32` value `v`. -/
def putUint32 (v : Nat) : Bytes :=
  [(v >>> 24) % 256, (v >>> 16) % 256, (v >>> 8) % 256, v % 256]

/-- The `range` loop of `assembleWithMarkers` over the remaining chunks: `n` is
`len(chunks)` of the whole slice, `i` the index of the next chunk and `result`
the bytes appended so far. The test `i < len(chunks)-1` is made on signed
integers, as in Go. -/
def assembleLoop (n : Nat) : Nat → List Bytes → Bytes → Bytes
  | _, [], result => result
  | i, chunk :: rest, result =>
    let length := putUint32 (chunk.length % 2 ^ 32)
    let result := result ++ length
    let result := result ++ chunk
    let result := if (i : Int) < (n : Int) - 1 then result ++ marker else result
    assembleLoop n (i + 1) rest result

/-- The method `assembleWithMarkers`. -/
def Obfuscator.assembleWithMarkers (_o : Obfuscator) (chunks : List Bytes) : Bytes :=
  assembleLoop chunks.length 0 chunks []

/-- The method `pkcs7Padding` for a block size `blockSize ≥ 0`; the remainder
`len(data) % blockSize` panics for `blockSize = 0`. -/
def Obfuscator.pkcs7Padding (_o : Obfuscator) (data : Bytes) (blockSize : Nat) : Run Bytes :=
  if blockSize = 0 then Run.panic
  else
    let padding := blockSize - data.length % blockSize
    let padText := (List.replicate padding 0).map (fun _ => padding % 256)
    Run.ret (data ++ padText)

/-- The constant `aes.BlockSize`. -/
def aesBlockSize : Nat := 16

/-- The function `NewObfuscator`, with the state of the random reader passed
through: the key is drawn first, then the IV, and the error of either
`io.ReadFull` is returned with a nil obfuscator. -/
def NewObfuscator (rng : RandReader) : (Option Obfuscator × Option GoError) × RandReader :=
  let key := List.replicate 32 0
  let r1 := readFull rng key
  match r1.2.1 with
  | some err => ((none, some err), r1.2.2)
  | none =>
    let iv := List.replicate aesBlockSize 0
    let r2 := readFull r1.2.2 iv
    match r2.2.1 with
    | some err => ((none, some err), r2.2.2)
    | none => ((some ⟨r1.1, r2.1⟩, none), r2.2.2)

/-- The AES block function, a parameter of the development: `E key block` is
what `Block.Encrypt` writes for the 16-byte input `block` under `key`. -/
abbrev BlockFn := Bytes → Bytes → Bytes

/-- The error result of `aes.NewCipher(key)` by its documented rule: the key is
16, 24 or 32 bytes long (AES-128, AES-192, AES-256), any other length gives
`aes.KeySizeError`. -/
def aesNewCipher (key : Bytes) : Option GoError :=
  if key.length = 16 ∨ key.length = 24 ∨ key.length = 32 then none
  else some (GoError.keySizeError key.length)

/-- The block loop of the CBC encrypter over `n` blocks of `src`: each block is
XORed with the previous ciphertext block (at first the IV) and encrypted in
place. -/
def cbcLoop (E : BlockFn) (key : Bytes) : Nat → Bytes → Bytes → Bytes
  | 0, _, _ => []
  | n + 1, iv, src =>
    let x := List.zipWith Nat.xor (src.take aesBlockSize) iv
    let c := copyInto x (E key x)
    c ++ cbcLoop E key n c (src.drop aesBlockSize)

/-- The call `mode.CryptBlocks(dst, src)` of a CBC encrypter, returning the new
contents of `dst`. It panics when `src` is not a whole number of blocks or
when `dst` is shorter than `src`. -/
def cryptBlocks (E : BlockFn) (key iv dst src : Bytes) : Run Bytes :=
  if src.length % aesBlockSize ≠ 0 then Run.panic
  else if dst.length < src.length then Run.panic
  else Run.ret (cbcLoop E key (src.length / aesBlockSize) iv src ++ dst.drop src.length)

/-- The method `encryptPayload`. `cipher.NewCBCEncrypter` panics when the IV is
not one block long. -/
def Obfuscator.encryptPayload (o : Obfuscator) (E : BlockFn) (payload : Bytes) :
    Run (Option Bytes × Option GoError) :=
  match aesNewCipher o.key with
  | some err => Run.ret (none, some err)
  | none =>
    if o.iv.length ≠ aesBlockSize then Run.panic
    else
      match o.pkcs7Padding payload aesBlockSize with
      | Run.panic => Run.panic
      | Run.diverge => Run.diverge
      | Run.ret padded =>
        let encrypted := List.replicate padded.length 0
        match cryptBlocks E o.key o.iv encrypted padded with
        | Run.panic => Run.panic
        | Run.diverge => Run.diverge
        | Run.ret encrypted => Run.ret (some encrypted, none)

/-- The method `addJitterData`, with the state of the random reader passed
through. Both results of `io.ReadFull` are dropped, as in the source, and the
second call reads into the buffer that the first call filled. -/
def Obfuscator.addJitterData (_o : Obfuscator) (rng : RandReader) (data : Bytes) :
    Bytes × RandReader :=
  let result : Bytes := []
  let jitter := List.replicate 16 0
  let r1 := readFull rng jitter
  let result := result ++ r1.1
  let result := result ++ data
  let r2 := readFull r1.2.2 r1.1
  let result := result ++ r2.1
  (result, r2.2.2)

/-- The method `ObfuscatePayload`, with the state of the random reader passed
through. -/
def Obfuscator.ObfuscatePayload (o : Obfuscator) (E : BlockFn) (rng : RandReader)
    (payload : Bytes) : Run (Option Bytes × Option GoError) × RandReader :=
  match o.encryptPayload E payload with
  | Run.panic => (Run.panic, rng)
  | Run.diverge => (Run.diverge, rng)
  | Run.ret (_, some err) => (Run.ret (none, some err), rng)
  | Run.ret (encrypted, none) =>
    let j := o.addJitterData rng (encrypted.getD [])
    match o.splitIntoChunks j.1 128 with
    | Run.panic => (Run.panic, j.2)
    | Run.diverge => (Run.diverge, j.2)
    | Run.ret chunks => (Run.ret (some (o.assembleWithMarkers chunks), none), j.2)

/-- A stand-in block function used to evaluate the pipeline on concrete
inputs: the block XORed with the front of the key. -/
def xorBlock : BlockFn := fun key block => List.zipWith Nat.xor block key

/-! ### The wire format, after the specification -/

/-- The on-wire unit of the specification: a length, the chunk bytes, and
whether the marker follows. -/
structure Frame where
  length : Nat
  chunk : Bytes
  hasMarker : Bool
  deriving DecidableEq, Repr

/-- The 4-byte big-endian unsigned encoding of `n`, most significant byte
first. -/
def be32 (n : Nat) : Bytes :=
  [n / 2 ^ 24 % 256, n / 2 ^ 16 % 256, n / 2 ^ 8 % 256, n % 256]

/-- The number that four bytes encode in big-endian order. -/
def be32Value (b : Bytes) : Nat :=
  b.getD 0 0 * 2 ^ 24 + b.getD 1 0 * 2 ^ 16 + b.getD 2 0 * 2 ^ 8 + b.getD 3 0

/-- The bytes of one frame: length field, chunk, then the marker when present. -/
def Frame.encode (f : Frame) : Bytes :=
  be32 f.length ++ f.chunk ++ (if f.hasMarker then marker else [])

/-- The frames of a list of chunks after the specification: the length field
is the byte length of the chunk, and the marker is present on every frame
except the last. -/
def framesOf : List Bytes → List Frame
  | [] => []
  | [c] => [⟨c.length, c, false⟩]
  | c :: d :: rest => ⟨c.length, c, true⟩ :: framesOf (d :: rest)

/-- The serialisation `Frame+` of the specification. -/
def encodeFrames (fs : List Frame) : Bytes :=
  (fs.map Frame.encode).flatten

/-- The offsets at which `assembleWithMarkers` appends a marker, counted from
`base`: after the length field and bytes of every chunk but the last. -/
def markerOffsets : Nat → List Bytes → List Nat
  | _, [] => []
  | _, [_] => []
  | base, c :: d :: rest =>
    (base + 4 + c.length) :: markerOffsets (base + 4 + c.length + 4) (d :: rest)

/-- The number of positions of `out` at which the four marker bytes start. -/
def countMarker (out : Bytes) : Nat :=
  ((List.range out.length).filter (fun i => (out.drop i).take 4 = marker)).length

/-- The chunks of `xs` cut front to back, at most `n` of them; a closed form of
what the loop of `splitIntoChunks` appends, used to reason about it. -/
def chunkList (C : Nat) : Nat → Bytes → List Bytes
  | 0, _ => []
  | n + 1, xs => if xs = [] then [] else xs.take C :: chunkList C n (xs.drop C)

/-! ### Slices in memory

A call of `ObfuscatePayload` can write to memory that exists before the call:
`pkcs7Padding` ends in `append(data, padText...)`, which writes behind the
payload in place when the payload slice has spare capacity. The definitions
below follow the methods on a store of backing arrays. All other slices that
the methods write to (`padText`, `encrypted`, `jitter`, `result`, `length`,
`chunks`) are allocated by the methods themselves, so those steps are taken on
values as before. -/

/-- A Go slice value: the number of its backing array, the offset of its first
element in that array, its length and its capacity. -/
structure GoSlice where
  arr : Nat
  off : Nat
  len : Nat
  cap : Nat
  deriving DecidableEq, Repr

/-- The backing arrays of the program, by number. -/
abbrev Mem := List Bytes

/-- The bytes that a slice shows. -/
def Mem.read (m : Mem) (s : GoSlice) : Bytes :=
  ((m.getD s.arr []).drop s.off).take s.len

/-- A slice is well formed in a store: its array exists, its capacity ends
within the array, and its length is at most its capacity. -/
def Mem.wf (m : Mem) (s : GoSlice) : Prop :=
  s.arr < m.length ∧ s.off + s.cap ≤ (m.getD s.arr []).length ∧ s.len ≤ s.cap

/-- An array after the bytes `xs` are written from position `pos` on. -/
def writeAt (arr : Bytes) (pos : Nat) (xs : Bytes) : Bytes :=
  arr.take pos ++ copyInto (arr.drop pos) xs

/-- The built-in `append(s, xs...)`: when the capacity of `s` suffices the
bytes are written in place behind `s` and the result shares the array of `s`;
otherwise a new array is allocated that holds the bytes of `s` and `xs` (its
capacity, which Go may round up, plays no role here). -/
def Mem.append (m : Mem) (s : GoSlice) (xs : Bytes) : Mem × GoSlice :=
  if s.len + xs.length ≤ s.cap then
    (m.set s.arr (writeAt (m.getD s.arr []) (s.off + s.len) xs),
     { s with len := s.len + xs.length })
  else
    (m ++ [m.read s ++ xs],
     { arr := m.length, off := 0, len := s.len + xs.length, cap := s.len + xs.length })

/-- An `Obfuscator` in memory: its two fields are slices. -/
structure ObfuscatorRef where
  key : GoSlice
  iv : GoSlice
  deriving DecidableEq, Repr

/-- The bytes of the key and of the IV of an instance in a store. -/
def ObfuscatorRef.value (o : ObfuscatorRef) (m : Mem) : Obfuscator :=
  { key := m.read o.key, iv := m.read o.iv }

/-- The method `pkcs7Padding` on the store: the store after the call and the
returned slice. -/
def ObfuscatorRef.pkcs7Padding (_o : ObfuscatorRef) (m : Mem) (data : GoSlice)
    (blockSize : Nat) : Mem × Run GoSlice :=
  if blockSize = 0 then (m, Run.panic)
  else
    let padding := blockSize - data.len % blockSize
    let padText := (List.replicate padding 0).map (fun _ => padding % 256)
    let r := m.append data padText
    (r.1, Run.ret r.2)

/-- The method `encryptPayload` on the store. `aes.NewCipher` expands the key
into a schedule of its own and `cipher.NewCBCEncrypter` copies the IV, both
before the payload is padded; `encrypted` is a new array, returned by value. -/
def ObfuscatorRef.encryptPayload (o : ObfuscatorRef) (E : BlockFn) (m : Mem)
    (payload : GoSlice) : Mem × Run (Option Bytes × Option GoError) :=
  let key := m.read o.key
  match aesNewCipher key with
  | some err => (m, Run.ret (none, some err))
  | none =>
    let iv := m.read o.iv
    if iv.length ≠ aesBlockSize then (m, Run.panic)
    else
      match o.pkcs7Padding m payload aesBlockSize with
      | (m1, Run.panic) => (m1, Run.panic)
      | (m1, Run.diverge) => (m1, Run.diverge)
      | (m1, Run.ret padded) =>
        let encrypted := List.replicate padded.len 0
        match cryptBlocks E key iv encrypted (m1.read padded) with
        | Run.panic => (m1, Run.panic)
        | Run.diverge => (m1, Run.diverge)
        | Run.ret encrypted => (m1, Run.ret (some encrypted, none))

/-- The method `ObfuscatePayload` on the store: the store after the call, what
the call returns (the output bytes by value), and the random reader after the
call. -/
def ObfuscatorRef.ObfuscatePayload (o : ObfuscatorRef) (E : BlockFn) (m : Mem)
    (rng : RandReader) (payload : GoSlice) :
    Mem × (Run (Option Bytes × Option GoError) × RandReader) :=
  match o.encryptPayload E m payload with
  | (m1, Run.panic) => (m1, (Run.panic, rng))
  | (m1, Run.diverge) => (m1, (Run.diverge, rng))
  | (m1, Run.ret (_, some err)) => (m1, (Run.ret (none, some err), rng))
  | (m1, Run.ret (encrypted, none)) =>
    let j := (o.value m1).addJitterData rng (encrypted.getD [])
    match (o.value m1).splitIntoChunks j.1 128 with
    | Run.panic => (m1, (Run.panic, j.2))
    | Run.diverge => (m1, (Run.diverge, j.2))
    | Run.ret chunks => (m1, (Run.ret (some ((o.value m1).assembleWithMarkers chunks), none), j.2))

/-- A stand-in block function that depends on every byte of a 32-byte key:
the block XORed with both halves of the key. -/
def xorBlockBoth : BlockFn :=
  fun key block => List.zipWith Nat.xor (List.zipWith Nat.xor block key) (key.drop 16)

/-! ### A reader of the wire format -/

/-- The loop of a reader of the wire format (the repository has no decoder;
this is the reader that the framing is meant for): read a 4-byte big-endian
length, that many chunk bytes, and, if input remains, the 4-byte marker, then
go on with the next frame. `none` means that the input is not well formed. -/
def decodeLoop : Nat → Bytes → Option (List Bytes)
  | 0, _ => none
  | fuel + 1, inp =>
    if inp.length < 4 then none
    else
      let n := be32Value (inp.take 4)
      let body := inp.drop 4
      if body.length < n then none
      else
        let rest := body.drop n
        if rest = [] then some [body.take n]
        else if rest.take 4 = marker then
          (decodeLoop fuel (rest.drop 4)).map (fun cs => body.take n :: cs)
        else none

/-- The reader of the wire format on a whole input; every frame takes at least
four bytes, so `len(inp)` rounds of the loop are enough. -/
def decodeFrames (inp : Bytes) : Option (List Bytes) :=
  if inp = [] then some [] else decodeLoop inp.length inp

/-! ### The pattern detector, `analyzer/protocol_analyzer.go` -/

/-- The type `ProtocolPattern`; a Go `string` is kept as its bytes in `Value`. -/
structure ProtocolPattern where
  Offset : Nat
  Length : Nat
  PatternType : String
  Value : Bytes
  deriving DecidableEq, Repr

/-- The type `ProtocolAnalyzer`. -/
structure ProtocolAnalyzer where
  patterns : List ProtocolPattern
  deriving DecidableEq, Repr

/-- The function `NewProtocolAnalyzer`. -/
def NewProtocolAnalyzer : ProtocolAnalyzer :=
  { patterns := [] }

/-- The slice expression `data[i:e]` with its bounds check; the check is made
against `len(data)`, the least capacity the slice can have. -/
def sliceChecked (data : Bytes) (i e : Nat) : Run Bytes :=
  if i ≤ e ∧ e ≤ data.length then Run.ret (subslice data i e) else Run.panic

/-- The call `binary.BigEndian.Uint16(b)`: it panics when `b` has fewer than
two bytes and returns `uint16(b[1]) | uint16(b[0])<<8`. -/
def beUint16 (b : Bytes) : Run Nat :=
  if b.length < 2 then Run.panic
  else Run.ret ((b.getD 1 0 ||| (b.getD 0 0 <<< 8)) % 2 ^ 16)

/-- The method `detectHeaders`. -/
def ProtocolAnalyzer.detectHeaders (_pa : ProtocolAnalyzer) (payload : Bytes) :
    Run (List ProtocolPattern) :=
  let patterns : List ProtocolPattern := []
  if payload.length ≥ 4 then
    match sliceChecked payload 0 4 with
    | Run.panic => Run.panic
    | Run.diverge => Run.diverge
    | Run.ret v =>
      let pattern : ProtocolPattern :=
        { Offset := 0, Length := 4, PatternType := "header", Value := v }
      Run.ret (patterns ++ [pattern])
  else Run.ret patterns

/-- The method `detectLengthFields`. Under the guard `len(payload) >= 6` the
difference `len(payload)-6` is not negative. -/
def ProtocolAnalyzer.detectLengthFields (_pa : ProtocolAnalyzer) (payload : Bytes) :
    Run (List ProtocolPattern) :=
  let patterns : List ProtocolPattern := []
  if payload.length ≥ 6 then
    match sliceChecked payload 4 6 with
    | Run.panic => Run.panic
    | Run.diverge => Run.diverge
    | Run.ret s =>
      match beUint16 s with
      | Run.panic => Run.panic
      | Run.diverge => Run.diverge
      | Run.ret length =>
        if length = payload.length - 6 then
          match sliceChecked payload 4 6 with
          | Run.panic => Run.panic
          | Run.diverge => Run.diverge
          | Run.ret v =>
            let pattern : ProtocolPattern :=
              { Offset := 4, Length := 2, PatternType := "length_field", Value := v }
            Run.ret (patterns ++ [pattern])
        else Run.ret patterns
  else Run.ret patterns

/-- The slice `delimiters` of `detectDelimiters`: the bytes `,` `|` `\n` `\r`. -/
def delimiters : Bytes := [44, 124, 10, 13]

/-- The method `detectDelimiters`: the outer loop runs over the payload with
its index, the inner loop over the delimiters. -/
def ProtocolAnalyzer.detectDelimiters (_pa : ProtocolAnalyzer) (payload : Bytes) :
    List ProtocolPattern :=
  payload.enum.foldl
    (fun patterns ib =>
      delimiters.foldl
        (fun patterns delimiter =>
          if ib.2 = delimiter then
            patterns ++ [{ Offset := ib.1, Length := 1, PatternType := "delimiter",
                           Value := [delimiter] }]
          else patterns)
        patterns)
    []

/-- The method `AnalyzePayload`: the three detectors in order, their results
appended to a local slice. -/
def ProtocolAnalyzer.AnalyzePayload (pa : ProtocolAnalyzer) (payload : Bytes) :
    Run (List ProtocolPattern) :=
  let patterns : List ProtocolPattern := []
  match pa.detectHeaders payload with
  | Run.panic => Run.panic
  | Run.diverge => Run.diverge
  | Run.ret hs =>
    let patterns := patterns ++ hs
    match pa.detectLengthFields payload with
    | Run.panic => Run.panic
    | Run.diverge => Run.diverge
    | Run.ret ls =>
      let patterns := patterns ++ ls
      let patterns := patterns ++ pa.detectDelimiters payload
      Run.ret patterns

/-- A call `pa.AnalyzePayload(payload)` on an analyzer held in the program
state: the analyzer after the call, and what the call returns. The method and
the detectors work on local slices named `patterns` and never assign to the
field `pa.patterns`, so the analyzer after the call is the one before it. -/
def ProtocolAnalyzer.callAnalyzePayload (pa : ProtocolAnalyzer) (payload : Bytes) :
    ProtocolAnalyzer × Run (List ProtocolPattern) :=
  (pa, pa.AnalyzePayload payload)

/-- The analyzer after a sequence of `AnalyzePayload` calls, one per payload. -/
def ProtocolAnalyzer.afterCalls (pa : ProtocolAnalyzer) (payloads : List Bytes) :
    ProtocolAnalyzer :=
  payloads.foldl (fun s p => (s.callAnalyzePayload p).1) pa

/-- The method `ExportPatterns`; `marshal` stands for
`json.MarshalIndent(·, "", "  ")`, which is not part of the repository. -/
def ProtocolAnalyzer.ExportPatterns (pa : ProtocolAnalyzer)
    (marshal : List ProtocolPattern → Option Bytes × Option GoError) :
    Option Bytes × Option GoError :=
  marshal pa.patterns

/-- Whether a byte is one of the four delimiters `,` `|` `\n` `\r`. -/
def isDelimiter (b : Nat) : Bool :=
  b = 44 || b = 124 || b = 10 || b = 13

/-! ## Part 2. Theorems -/

/-! ### Chunking -/

theorem subslice_eq_take (data : Bytes) (i C : Nat) :
    subslice data i (if i + C > data.length then data.length else i + C)
      = (data.drop i).take C := by
  unfold subslice
  split
  · rw [List.take_of_length_le (by simp), List.take_of_length_le (by simp; omega)]
  · congr 1; omega

theorem splitLoop_eq (data : Bytes) (C : Nat) (hC : 0 < C) :
    ∀ (fuel i : Nat) (chunks : List Bytes), data.length - i ≤ fuel →
      splitLoop data C fuel i chunks = some (chunks ++ chunkList C fuel (data.drop i)) := by
  intro fuel
  induction fuel with
  | zero =>
    intro i chunks h
    have : ¬ i < data.length := by omega
    simp [splitLoop, chunkList, this]
  | succ fuel ih =>
    intro i chunks h
    by_cases hi : i < data.length
    · have hne : data.drop i ≠ [] := by
        intro h0
        have := congrArg List.length h0
        simp at this
        omega
      rw [splitLoop, if_pos hi]
      simp only []
      rw [subslice_eq_take, ih (i + C) _ (by omega)]
      simp [chunkList, hne, List.drop_drop, Nat.add_comm]
    · have h0 : data.drop i = [] := List.drop_of_length_le (by omega)
      simp [splitLoop, chunkList, hi, h0]

theorem chunkList_flatten (C : Nat) (hC : 0 < C) :
    ∀ (n : Nat) (xs : Bytes), xs.length ≤ n → (chunkList C n xs).flatten = xs := by
  intro n
  induction n with
  | zero =>
    intro xs h
    have : xs = [] := List.length_eq_zero.mp (by omega)
    simp [chunkList, this]
  | succ n ih =>
    intro xs h
    by_cases hx : xs = []
    · simp [chunkList, hx]
    · have hl : (xs.drop C).length ≤ n := by
        have : 0 < xs.length := List.length_pos.mpr hx
        simp; omega
      simp [chunkList, hx, ih _ hl]

theorem chunkList_mem_length (C : Nat) (hC : 0 < C) :
    ∀ (n : Nat) (xs c : Bytes), c ∈ chunkList C n xs → 1 ≤ c.length ∧ c.length ≤ C := by
  intro n
  induction n with
  | zero => intro xs c h; simp [chunkList] at h
  | succ n ih =>
    intro xs c h
    by_cases hx : xs = []
    · simp [chunkList, hx] at h
    · have hp : 0 < xs.length := List.length_pos.mpr hx
      simp only [chunkList, hx, if_false, List.mem_cons] at h
      rcases h with h | h
      · subst h; simp; omega
      · exact ih _ _ h

theorem chunkList_dropLast_length (C : Nat) :
    ∀ (n : Nat) (xs c : Bytes), c ∈ (chunkList C n xs).dropLast → c.length = C := by
  intro n
  induction n with
  | zero => intro xs c h; simp [chunkList] at h
  | succ n ih =>
    intro xs c h
    by_cases hx : xs = []
    · simp [chunkList, hx] at h
    · simp only [chunkList, hx, if_false] at h
      cases hr : chunkList C n (xs.drop C) with
      | nil => simp [hr] at h
      | cons d rest =>
        rw [hr, List.dropLast_cons₂] at h
        simp only [List.mem_cons] at h
        rcases h with h | h
        · subst h
          have hd : xs.drop C ≠ [] := by
            intro h0
            cases n with
            | zero => simp [chunkList] at hr
            | succ m => simp [chunkList, h0] at hr
          have : 0 < (xs.drop C).length := List.length_pos.mpr hd
          simp at this ⊢
          omega
        · apply ih (xs.drop C) c
          rw [hr]; exact h

theorem chunkList_length (C : Nat) (hC : 0 < C) :
    ∀ (n : Nat) (xs : Bytes), xs.length ≤ n →
      (chunkList C n xs).length = (xs.length + C - 1) / C := by
  intro n
  induction n with
  | zero =>
    intro xs h
    have : xs = [] := List.length_eq_zero.mp (by omega)
    subst this
    simp [chunkList]
    exact (Nat.div_eq_of_lt (by omega)).symm
  | succ n ih =>
    intro xs h
    by_cases hx : xs = []
    · subst hx
      simp [chunkList]
      exact (Nat.div_eq_of_lt (by omega)).symm
    · have hp : 0 < xs.length := List.length_pos.mpr hx
      have hl : (xs.drop C).length ≤ n := by simp; omega
      simp only [chunkList, hx, if_false, List.length_cons, ih _ hl, List.length_drop]
      by_cases hc : C ≤ xs.length
      · have : xs.length + C - 1 = (xs.length - C + C - 1) + C := by omega
        rw [this, Nat.add_div_right _ hC]
      · have h1 : xs.length - C + C - 1 = C - 1 := by omega
        have h2 : (C - 1) / C = 0 := Nat.div_eq_of_lt (by omega)
        have h3 : xs.length + C - 1 = (xs.length - 1) + C := by omega
        have h4 : (xs.length - 1) / C = 0 := Nat.div_eq_of_lt (by omega)
        rw [h1, h2, h3, Nat.add_div_right _ hC, h4]

theorem splitIntoChunks_eq (o : Obfuscator) (data : Bytes) (C : Nat) (hC : 0 < C) :
    o.splitIntoChunks data C = Run.ret (chunkList C data.length data) := by
  unfold Obfuscator.splitIntoChunks
  rw [splitLoop_eq data C hC data.length 0 [] (by omega)]
  simp

theorem splitLoop_zero_none (data : Bytes) (h : data ≠ []) :
    ∀ (fuel : Nat) (chunks : List Bytes), splitLoop data 0 fuel 0 chunks = none := by
  have hp : 0 < data.length := List.length_pos.mpr h
  intro fuel
  induction fuel with
  | zero => intro chunks; simp [splitLoop, hp]
  | succ fuel ih => intro chunks; simp [splitLoop, hp, ih]

theorem splitIntoChunks_zero_diverges (o : Obfuscator) (data : Bytes) (h : data ≠ []) :
    o.splitIntoChunks data 0 = Run.diverge := by
  unfold Obfuscator.splitIntoChunks
  rw [splitLoop_zero_none data h]

/-- C1. For every byte sequence `J` and chunk size `C > 0`, `splitIntoChunks`
returns (its loop ends), and the returned chunks concatenated in order are
exactly `J`, so their lengths sum to `len(J)`; every chunk except the last has
length exactly `C`, and the last chunk has a length between `1` and `C`. -/
theorem splitIntoChunks_partition (o : Obfuscator) (J : Bytes) (C : Nat) (hC : 0 < C) :
    ∃ chunks : List Bytes,
      o.splitIntoChunks J C = Run.ret chunks ∧
      chunks.flatten = J ∧
      (chunks.map List.length).sum = J.length ∧
      (∀ c ∈ chunks.dropLast, c.length = C) ∧
      (∀ c ∈ chunks.getLast?, 1 ≤ c.length ∧ c.length ≤ C) := by
  refine ⟨chunkList C J.length J, splitIntoChunks_eq o J C hC, ?_, ?_, ?_, ?_⟩
  · exact chunkList_flatten C hC _ _ (Nat.le_refl _)
  · have h := congrArg List.length (chunkList_flatten C hC _ J (Nat.le_refl _))
    rw [List.length_flatten] at h
    exact h
  · exact chunkList_dropLast_length C _ _
  · intro c hc
    exact chunkList_mem_length C hC _ _ c (List.mem_of_getLast?_eq_some (Option.mem_def.mp hc))

/-- C1, evaluated: five bytes cut with chunk size two. -/
theorem splitIntoChunks_partition_witness :
    (⟨[], []⟩ : Obfuscator).splitIntoChunks [1, 2, 3, 4, 5] 2 = Run.ret [[1, 2], [3, 4], [5]] ∧
    0 < 2 ∧
    ∃ chunks : List Bytes,
      (⟨[], []⟩ : Obfuscator).splitIntoChunks [1, 2, 3, 4, 5] 2 = Run.ret chunks ∧
      chunks.flatten = [1, 2, 3, 4, 5] ∧
      (chunks.map List.length).sum = [1, 2, 3, 4, 5].length ∧
      (∀ c ∈ chunks.dropLast, c.length = 2) ∧
      (∀ c ∈ chunks.getLast?, 1 ≤ c.length ∧ c.length ≤ 2) :=
  ⟨by decide, by decide, splitIntoChunks_partition ⟨[], []⟩ [1, 2, 3, 4, 5] 2 (by decide)⟩

/-! ### Frame assembly -/

theorem assembleLoop_acc (n : Nat) :
    ∀ (cs : List Bytes) (i : Nat) (a r : Bytes),
      assembleLoop n i cs (a ++ r) = a ++ assembleLoop n i cs r := by
  intro cs
  induction cs with
  | nil => intro i a r; simp [assembleLoop]
  | cons c rest ih =>
    intro i a r
    simp only [assembleLoop]
    split
    · rw [← ih]; simp [List.append_assoc]
    · rw [← ih]; simp [List.append_assoc]

theorem assembleLoop_shift :
    ∀ (cs : List Bytes) (n i : Nat) (r : Bytes),
      assembleLoop (n + 1) (i + 1) cs r = assembleLoop n i cs r := by
  intro cs
  induction cs with
  | nil => intro n i r; simp [assembleLoop]
  | cons c rest ih =>
    intro n i r
    simp only [assembleLoop]
    have hiff : (((i + 1 : Nat) : Int) < ((n + 1 : Nat) : Int) - 1) ↔ ((i : Int) < (n : Int) - 1) := by
      push_cast; omega
    by_cases h : (i : Int) < (n : Int) - 1
    · rw [if_pos h, if_pos (hiff.mpr h), ih]
    · rw [if_neg h, if_neg (fun h2 => h (hiff.mp h2)), ih]

theorem assembleWithMarkers_nil (o : Obfuscator) : o.assembleWithMarkers [] = [] := by
  simp [Obfuscator.assembleWithMarkers, assembleLoop]

theorem assembleWithMarkers_single (o : Obfuscator) (c : Bytes) :
    o.assembleWithMarkers [c] = putUint32 (c.length % 2 ^ 32) ++ c := by
  simp [Obfuscator.assembleWithMarkers, assembleLoop]

theorem assembleWithMarkers_cons_cons (o : Obfuscator) (c d : Bytes) (rest : List Bytes) :
    o.assembleWithMarkers (c :: d :: rest)
      = putUint32 (c.length % 2 ^ 32) ++ c ++ marker ++ o.assembleWithMarkers (d :: rest) := by
  have hlt : ((0 : Nat) : Int) < (((c :: d :: rest).length : Nat) : Int) - 1 := by
    simp only [List.length_cons]; push_cast; omega
  have hlen : (c :: d :: rest).length = (d :: rest).length + 1 := by simp
  unfold Obfuscator.assembleWithMarkers
  rw [assembleLoop, if_pos hlt, hlen, assembleLoop_shift]
  have := assembleLoop_acc (d :: rest).length (d :: rest) 0
    ([] ++ putUint32 (c.length % 2 ^ 32) ++ c ++ marker) []
  simpa using this

theorem putUint32_eq_be32 (n : Nat) (h : n < 2 ^ 32) : putUint32 (n % 2 ^ 32) = be32 n := by
  rw [Nat.mod_eq_of_lt h]
  simp [putUint32, be32, Nat.shiftRight_eq_div_pow]

theorem be32Value_be32 (n : Nat) (h : n < 2 ^ 32) : be32Value (be32 n) = n := by
  simp only [be32Value, be32, List.getD_cons_zero, List.getD_cons_succ]
  norm_num at h ⊢
  omega

theorem be32_length (n : Nat) : (be32 n).length = 4 := by simp [be32]

theorem putUint32_length (n : Nat) : (putUint32 n).length = 4 := by simp [putUint32]

theorem marker_length : marker.length = 4 := by simp [marker]

theorem assembleLoop_enum (n : Nat) :
    ∀ (cs : List Bytes) (i : Nat) (r : Bytes),
      assembleLoop n i cs r = r ++ ((cs.enumFrom i).map (fun p =>
        putUint32 (p.2.length % 2 ^ 32) ++ p.2 ++ (if p.1 + 1 < n then marker else []))).flatten := by
  intro cs
  induction cs with
  | nil => intro i r; simp [assembleLoop]
  | cons c rest ih =>
    intro i r
    have hiff : ((i : Int) < (n : Int) - 1) ↔ i + 1 < n := by omega
    simp only [assembleLoop, List.enumFrom_cons, List.map_cons, List.flatten_cons]
    by_cases h : i + 1 < n
    · rw [if_pos (hiff.mpr h), if_pos h, ih]; simp [List.append_assoc]
    · rw [if_neg (fun h2 => h (hiff.mp h2)), if_neg h, ih]; simp [List.append_assoc]

theorem assembleWithMarkers_frames (o : Obfuscator) :
    ∀ (chunks : List Bytes), (∀ c ∈ chunks, c.length < 2 ^ 32) →
      o.assembleWithMarkers chunks = encodeFrames (framesOf chunks) := by
  intro chunks
  induction chunks with
  | nil => intro _; simp [assembleWithMarkers_nil, framesOf, encodeFrames]
  | cons c rest ih =>
    intro h
    have hc : c.length < 2 ^ 32 := h c (List.mem_cons_self _ _)
    cases rest with
    | nil =>
      rw [assembleWithMarkers_single, putUint32_eq_be32 _ hc]
      simp [framesOf, encodeFrames, Frame.encode]
    | cons d rest =>
      have ih2 := ih (fun x hx => h x (List.mem_cons_of_mem _ hx))
      rw [assembleWithMarkers_cons_cons, ih2, putUint32_eq_be32 _ hc]
      simp [framesOf, encodeFrames, Frame.encode]

theorem putUint32_wrap : putUint32 (4294967296 % 2 ^ 32) = [0, 0, 0, 0] := by decide

/-- C2, counterexample. For a single chunk of `2 ^ 32` bytes the length field
written by `assembleWithMarkers` is `00 00 00 00`: its value is not the byte
length of the chunk. -/
theorem assembleWithMarkers_length_field_wraps :
    be32Value (((⟨[], []⟩ : Obfuscator).assembleWithMarkers
        [List.replicate 4294967296 0]).take 4)
      ≠ (List.replicate 4294967296 0).length := by
  rw [assembleWithMarkers_single, List.length_replicate, putUint32_wrap]
  intro h
  have h2 : List.take 4 ([0, 0, 0, 0] ++ List.replicate 4294967296 0) = [0, 0, 0, 0] :=
    List.take_left' rfl
  rw [h2] at h
  exact absurd h (by decide)

/-- C2, amended. For every ordered list of chunks, each shorter than `2 ^ 32`
bytes, `assembleWithMarkers` returns exactly the concatenation, for the chunks
in order, of the 4-byte big-endian encoding of the chunk length, the chunk
bytes, and the marker `DE AD BE EF` if and only if the chunk is not the last;
this is the serialisation of the frames of the wire format, and the length
field of every chunk decodes to that chunk's byte length. -/
theorem assembleWithMarkers_wire_format (o : Obfuscator) (chunks : List Bytes)
    (hlen : ∀ c ∈ chunks, c.length < 2 ^ 32) :
    o.assembleWithMarkers chunks
        = (chunks.enum.map (fun p =>
            be32 p.2.length ++ p.2 ++ (if p.1 + 1 < chunks.length then marker else []))).flatten ∧
    o.assembleWithMarkers chunks = encodeFrames (framesOf chunks) ∧
    (∀ c ∈ chunks, be32Value (be32 c.length) = c.length) := by
  refine ⟨?_, assembleWithMarkers_frames o chunks hlen, fun c hc => be32Value_be32 _ (hlen c hc)⟩
  unfold Obfuscator.assembleWithMarkers
  rw [assembleLoop_enum, List.nil_append, List.enum]
  congr 1
  apply List.map_congr_left
  intro p hp
  rw [putUint32_eq_be32 _ (hlen p.2 (List.snd_mem_of_mem_enumFrom hp))]

/-- C2, evaluated: two chunks give two frames with one marker between them. -/
theorem assembleWithMarkers_wire_format_witness :
    (⟨[], []⟩ : Obfuscator).assembleWithMarkers [[7, 8, 9], [5]]
        = [0, 0, 0, 3, 7, 8, 9, 0xDE, 0xAD, 0xBE, 0xEF, 0, 0, 0, 1, 5] ∧
    ((⟨[], []⟩ : Obfuscator).assembleWithMarkers [[7, 8, 9], [5]]
        = (([[7, 8, 9], [5]] : List Bytes).enum.map (fun p =>
            be32 p.2.length ++ p.2 ++
              (if p.1 + 1 < ([[7, 8, 9], [5]] : List Bytes).length then marker else []))).flatten ∧
      (⟨[], []⟩ : Obfuscator).assembleWithMarkers [[7, 8, 9], [5]]
        = encodeFrames (framesOf [[7, 8, 9], [5]]) ∧
      (∀ c ∈ ([[7, 8, 9], [5]] : List Bytes), be32Value (be32 c.length) = c.length)) :=
  ⟨by decide, assembleWithMarkers_wire_format ⟨[], []⟩ [[7, 8, 9], [5]] (by decide)⟩

theorem markerOffsets_length :
    ∀ (cs : List Bytes) (base : Nat), (markerOffsets base cs).length = cs.length - 1 := by
  intro cs
  induction cs with
  | nil => intro base; simp [markerOffsets]
  | cons c rest ih =>
    intro base
    cases rest with
    | nil => simp [markerOffsets]
    | cons d rest =>
      simp only [markerOffsets, List.length_cons, ih]
      simp

theorem markerOffsets_lower :
    ∀ (cs : List Bytes) (base p : Nat), p ∈ markerOffsets base cs → base + 4 ≤ p := by
  intro cs
  induction cs with
  | nil => intro base p h; simp [markerOffsets] at h
  | cons c rest ih =>
    intro base p h
    cases rest with
    | nil => simp [markerOffsets] at h
    | cons d rest =>
      simp only [markerOffsets, List.mem_cons] at h
      rcases h with h | h
      · omega
      · have := ih _ _ h
        omega

theorem markerOffsets_nodup :
    ∀ (cs : List Bytes) (base : Nat), (markerOffsets base cs).Nodup := by
  intro cs
  induction cs with
  | nil => intro base; simp [markerOffsets]
  | cons c rest ih =>
    intro base
    cases rest with
    | nil => simp [markerOffsets]
    | cons d rest =>
      simp only [markerOffsets, List.nodup_cons]
      refine ⟨fun hmem => ?_, ih _⟩
      have := markerOffsets_lower _ _ _ hmem
      omega

theorem markerOffsets_getElem? :
    ∀ (cs : List Bytes) (base k : Nat), k + 1 < cs.length →
      (markerOffsets base cs)[k]?
        = some (base + ((cs.take (k + 1)).map (fun c => 4 + c.length)).sum + 4 * k) := by
  intro cs
  induction cs with
  | nil => intro base k h; simp at h
  | cons c rest ih =>
    intro base k h
    cases rest with
    | nil => simp at h
    | cons d rest =>
      cases k with
      | zero => simp [markerOffsets]; omega
      | succ k =>
        have hk : k + 1 < (d :: rest).length := by simpa using h
        simp only [markerOffsets, List.getElem?_cons_succ, ih _ k hk]
        simp only [List.take_succ_cons, List.map_cons, List.sum_cons, Option.some.injEq]
        omega

theorem assembleWithMarkers_marker_at (o : Obfuscator) :
    ∀ (cs : List Bytes) (pre : Bytes) (p : Nat), p ∈ markerOffsets pre.length cs →
      ((pre ++ o.assembleWithMarkers cs).drop p).take 4 = marker ∧
      p + 4 ≤ (pre ++ o.assembleWithMarkers cs).length := by
  intro cs
  induction cs with
  | nil => intro pre p h; simp [markerOffsets] at h
  | cons c rest ih =>
    intro pre p h
    cases rest with
    | nil => simp [markerOffsets] at h
    | cons d rest =>
      simp only [markerOffsets, List.mem_cons] at h
      rw [assembleWithMarkers_cons_cons]
      rcases h with h | h
      · subst h
        have e : pre ++ (putUint32 (c.length % 2 ^ 32) ++ c ++ marker
              ++ o.assembleWithMarkers (d :: rest))
            = (pre ++ putUint32 (c.length % 2 ^ 32) ++ c)
              ++ (marker ++ o.assembleWithMarkers (d :: rest)) := by
          simp [List.append_assoc]
        have hl : (pre ++ putUint32 (c.length % 2 ^ 32) ++ c).length = pre.length + 4 + c.length := by
          simp [putUint32_length]; omega
        rw [e]
        constructor
        · rw [List.drop_left' hl]
          exact List.take_left' marker_length
        · simp [putUint32_length, marker_length]; omega
      · have e : pre ++ (putUint32 (c.length % 2 ^ 32) ++ c ++ marker
              ++ o.assembleWithMarkers (d :: rest))
            = (pre ++ putUint32 (c.length % 2 ^ 32) ++ c ++ marker)
              ++ o.assembleWithMarkers (d :: rest) := by
          simp [List.append_assoc]
        have hl : (pre ++ putUint32 (c.length % 2 ^ 32) ++ c ++ marker).length
            = pre.length + 4 + c.length + 4 := by
          simp [putUint32_length, marker_length]; omega
        rw [e]
        rw [← hl] at h
        exact ih _ p h

theorem assembleWithMarkers_length (o : Obfuscator) :
    ∀ (cs : List Bytes),
      (o.assembleWithMarkers cs).length
        = (cs.map (fun c => 4 + c.length)).sum + 4 * (cs.length - 1) := by
  intro cs
  induction cs with
  | nil => simp [assembleWithMarkers_nil]
  | cons c rest ih =>
    cases rest with
    | nil => simp [assembleWithMarkers_single, putUint32_length]
    | cons d rest =>
      rw [assembleWithMarkers_cons_cons]
      simp only [List.length_append, ih, putUint32_length, marker_length, List.map_cons,
        List.sum_cons, List.length_cons]
      omega

theorem assembleWithMarkers_last (o : Obfuscator) :
    ∀ (cs : List Bytes) (h : cs ≠ []),
      ∃ pre : Bytes, o.assembleWithMarkers cs
        = pre ++ (putUint32 ((cs.getLast h).length % 2 ^ 32) ++ cs.getLast h) := by
  intro cs
  induction cs with
  | nil => intro h; exact absurd rfl h
  | cons c rest ih =>
    intro h
    cases rest with
    | nil => exact ⟨[], by simp [assembleWithMarkers_single]⟩
    | cons d rest =>
      obtain ⟨pre, hpre⟩ := ih (List.cons_ne_nil d rest)
      refine ⟨putUint32 (c.length % 2 ^ 32) ++ c ++ marker ++ pre, ?_⟩
      rw [assembleWithMarkers_cons_cons, hpre]
      simp [List.append_assoc]

theorem le_countMarker (out : Bytes) (offs : List Nat) (hnd : offs.Nodup)
    (h : ∀ p ∈ offs, (out.drop p).take 4 = marker ∧ p + 4 ≤ out.length) :
    offs.length ≤ countMarker out := by
  unfold countMarker
  apply List.Subperm.length_le
  apply List.subperm_of_subset hnd
  intro p hp
  have := h p hp
  simp only [List.mem_filter, List.mem_range, decide_eq_true_eq]
  exact ⟨by omega, this.1⟩

/-- C3, counterexample. A single chunk whose bytes are `DE AD BE EF` is
assembled to `00 00 00 04 DE AD BE EF`: with `n = 1` chunk the output contains
one occurrence of the marker bytes, not `n - 1 = 0`. -/
theorem assembleWithMarkers_marker_bytes_in_chunk :
    countMarker ((⟨[], []⟩ : Obfuscator).assembleWithMarkers [[0xDE, 0xAD, 0xBE, 0xEF]])
      ≠ ([[0xDE, 0xAD, 0xBE, 0xEF]] : List Bytes).length - 1 := by
  decide

/-- C3, amended. For every non-empty list of `n` chunks, `assembleWithMarkers`
writes the marker `DE AD BE EF` at `n - 1` offsets, the `k`-th of them
immediately after the length field and bytes of the `k`-th non-final frame, so
the output contains at least `n - 1` occurrences of the marker bytes; its
length is that of the `n` frames plus `4 * (n - 1)`, and it ends with the
length field and bytes of the final chunk, with no marker appended. -/
theorem assembleWithMarkers_marker_placement (o : Obfuscator) (chunks : List Bytes)
    (hne : chunks ≠ []) :
    (markerOffsets 0 chunks).length = chunks.length - 1 ∧
    (∀ k, k + 1 < chunks.length → (markerOffsets 0 chunks)[k]?
        = some (((chunks.take (k + 1)).map (fun c => 4 + c.length)).sum + 4 * k)) ∧
    (∀ p ∈ markerOffsets 0 chunks, ((o.assembleWithMarkers chunks).drop p).take 4 = marker) ∧
    chunks.length - 1 ≤ countMarker (o.assembleWithMarkers chunks) ∧
    (o.assembleWithMarkers chunks).length
        = (chunks.map (fun c => 4 + c.length)).sum + 4 * (chunks.length - 1) ∧
    (∃ pre : Bytes, o.assembleWithMarkers chunks
        = pre ++ (putUint32 ((chunks.getLast hne).length % 2 ^ 32) ++ chunks.getLast hne)) := by
  have hat : ∀ p ∈ markerOffsets 0 chunks,
      ((o.assembleWithMarkers chunks).drop p).take 4 = marker ∧
      p + 4 ≤ (o.assembleWithMarkers chunks).length := by
    intro p hp
    have := assembleWithMarkers_marker_at o chunks [] p (by simpa using hp)
    simpa using this
  refine ⟨markerOffsets_length _ _, ?_, fun p hp => (hat p hp).1, ?_,
    assembleWithMarkers_length o chunks, assembleWithMarkers_last o chunks hne⟩
  · intro k hk
    have := markerOffsets_getElem? chunks 0 k hk
    simpa using this
  · have := le_countMarker _ _ (markerOffsets_nodup chunks 0) hat
    rwa [markerOffsets_length] at this

/-- C3, evaluated: two chunks, one marker at offset `4 + 3`. -/
theorem assembleWithMarkers_marker_placement_witness :
    ([[7, 8, 9], [5]] : List Bytes) ≠ [] ∧
    markerOffsets 0 [[7, 8, 9], [5]] = [7] ∧
    (markerOffsets 0 [[7, 8, 9], [5]]).length = ([[7, 8, 9], [5]] : List Bytes).length - 1 ∧
    (∀ p ∈ markerOffsets 0 [[7, 8, 9], [5]],
      (((⟨[], []⟩ : Obfuscator).assembleWithMarkers [[7, 8, 9], [5]]).drop p).take 4 = marker) ∧
    ((⟨[], []⟩ : Obfuscator).assembleWithMarkers [[7, 8, 9], [5]]).length = 16 :=
  have h := assembleWithMarkers_marker_placement ⟨[], []⟩ [[7, 8, 9], [5]] (by decide)
  ⟨by decide, by decide, h.1, h.2.2.1, by decide⟩

/-! ### Padding -/

theorem pkcs7Padding_eq (o : Obfuscator) (P : Bytes) :
    o.pkcs7Padding P 16
      = Run.ret (P ++ List.replicate (16 - P.length % 16) (16 - P.length % 16)) := by
  have hlt : 16 - P.length % 16 < 256 := by omega
  simp [Obfuscator.pkcs7Padding, Nat.mod_eq_of_lt hlt]

/-- C4. For every plaintext `P`, `pkcs7Padding(P, 16)` returns a byte string
whose length is a positive multiple of 16 and strictly greater than
`len(P)`. -/
theorem pkcs7Padding_length (o : Obfuscator) (P : Bytes) :
    ∃ out : Bytes, o.pkcs7Padding P 16 = Run.ret out ∧
      out.length % 16 = 0 ∧ 0 < out.length ∧ P.length < out.length := by
  refine ⟨_, pkcs7Padding_eq o P, ?_, ?_, ?_⟩ <;>
  · simp only [List.length_append, List.length_replicate]
    omega

/-- C5. For every plaintext `P`, `pkcs7Padding(P, 16)` returns `P` followed by
exactly `p` bytes each of value `p`, where `p = 16 - (len(P) mod 16)`; `p` is
16 when `len(P)` is a multiple of 16 and lies between 1 and 16 always; the
first `len(P)` bytes of the result are `P`, and its last byte is the number of
bytes appended. -/
theorem pkcs7Padding_shape (o : Obfuscator) (P : Bytes) :
    ∃ out : Bytes, o.pkcs7Padding P 16 = Run.ret out ∧
      out = P ++ List.replicate (16 - P.length % 16) (16 - P.length % 16) ∧
      (P.length % 16 = 0 → 16 - P.length % 16 = 16) ∧
      1 ≤ 16 - P.length % 16 ∧ 16 - P.length % 16 ≤ 16 ∧
      out.take P.length = P ∧
      out.length - P.length = 16 - P.length % 16 ∧
      out.getLast? = some (out.length - P.length) := by
  have hp : 16 - P.length % 16 = (16 - P.length % 16 - 1) + 1 := by omega
  refine ⟨_, pkcs7Padding_eq o P, rfl, ?_, ?_, ?_, ?_, ?_, ?_⟩
  · intro h; omega
  · omega
  · omega
  · exact List.take_left' rfl
  · simp
  · have hl : (P ++ List.replicate (16 - P.length % 16) (16 - P.length % 16)).length - P.length
        = 16 - P.length % 16 := by simp
    rw [hl]
    generalize 16 - P.length % 16 = p at hp
    rw [hp, List.replicate_succ', ← List.append_assoc, List.getLast?_concat, ← hp]

/-- C5, evaluated: a block-aligned plaintext of 16 bytes receives a full block
of 16 bytes of value 16. -/
theorem pkcs7Padding_shape_witness :
    (⟨[], []⟩ : Obfuscator).pkcs7Padding (List.replicate 16 7) 16
        = Run.ret (List.replicate 16 7 ++ List.replicate 16 16) ∧
    (⟨[], []⟩ : Obfuscator).pkcs7Padding [1, 2, 3] 16
        = Run.ret [1, 2, 3, 13, 13, 13, 13, 13, 13, 13, 13, 13, 13, 13, 13, 13] ∧
    ∃ out : Bytes, (⟨[], []⟩ : Obfuscator).pkcs7Padding (List.replicate 16 7) 16 = Run.ret out ∧
      out = List.replicate 16 7
        ++ List.replicate (16 - (List.replicate 16 7).length % 16)
            (16 - (List.replicate 16 7).length % 16) ∧
      ((List.replicate 16 7).length % 16 = 0 → 16 - (List.replicate 16 7).length % 16 = 16) ∧
      1 ≤ 16 - (List.replicate 16 7).length % 16 ∧ 16 - (List.replicate 16 7).length % 16 ≤ 16 ∧
      out.take (List.replicate 16 7).length = List.replicate 16 7 ∧
      out.length - (List.replicate 16 7).length = 16 - (List.replicate 16 7).length % 16 ∧
      out.getLast? = some (out.length - (List.replicate 16 7).length) :=
  ⟨by decide, by decide, pkcs7Padding_shape ⟨[], []⟩ (List.replicate 16 7)⟩

/-! ### Encryption -/

theorem copyInto_length (dst src : Bytes) : (copyInto dst src).length = dst.length := by
  simp [copyInto]; omega

theorem cbcLoop_length (E : BlockFn) (key : Bytes) :
    ∀ (n : Nat) (iv src : Bytes), iv.length = 16 → 16 * n ≤ src.length →
      (cbcLoop E key n iv src).length = 16 * n := by
  intro n
  induction n with
  | zero => intro iv src _ _; simp [cbcLoop]
  | succ n ih =>
    intro iv src hiv hsrc
    have hx : (List.zipWith Nat.xor (src.take aesBlockSize) iv).length = 16 := by
      simp [aesBlockSize, hiv]; omega
    have hc : (copyInto (List.zipWith Nat.xor (src.take aesBlockSize) iv)
        (E key (List.zipWith Nat.xor (src.take aesBlockSize) iv))).length = 16 := by
      rw [copyInto_length, hx]
    have hd : 16 * n ≤ (src.drop aesBlockSize).length := by
      simp [aesBlockSize]; omega
    simp only [cbcLoop, List.length_append, hc, ih _ _ hc hd]
    omega

theorem aesNewCipher_ok (key : Bytes)
    (h : key.length = 16 ∨ key.length = 24 ∨ key.length = 32) : aesNewCipher key = none := by
  simp [aesNewCipher, h]

theorem encryptPayload_ok (o : Obfuscator) (E : BlockFn) (payload : Bytes)
    (hk : o.key.length = 16 ∨ o.key.length = 24 ∨ o.key.length = 32)
    (hiv : o.iv.length = 16) :
    ∃ enc : Bytes, o.encryptPayload E payload = Run.ret (some enc, none) ∧
      enc.length = 16 * (payload.length / 16 + 1) := by
  have hpl : (payload ++ List.replicate (16 - payload.length % 16)
      (16 - payload.length % 16)).length = 16 * (payload.length / 16 + 1) := by
    simp only [List.length_append, List.length_replicate]; omega
  refine ⟨cbcLoop E o.key (payload.length / 16 + 1) o.iv
      (payload ++ List.replicate (16 - payload.length % 16) (16 - payload.length % 16)), ?_, ?_⟩
  · unfold Obfuscator.encryptPayload
    rw [aesNewCipher_ok _ hk]
    simp only [aesBlockSize, hiv, ne_eq, not_true_eq_false, if_false, pkcs7Padding_eq]
    unfold cryptBlocks
    simp only [aesBlockSize, hpl, List.length_replicate, ne_eq, lt_self_iff_false, if_false]
    have h0 : 16 * (payload.length / 16 + 1) % 16 = 0 := by omega
    have h1 : 16 * (payload.length / 16 + 1) / 16 = payload.length / 16 + 1 := by omega
    have h2 : List.drop (16 * (payload.length / 16 + 1))
        (List.replicate (16 * (payload.length / 16 + 1)) 0) = [] :=
      List.drop_of_length_le (by simp)
    simp [h0, h1, h2]
  · exact cbcLoop_length E o.key _ _ _ hiv (by rw [hpl])

/-- C6, counterexample. With a 16-byte key (and a 16-byte IV) `encryptPayload`
does not fail: `aes.NewCipher` accepts the key as an AES-128 key. -/
theorem encryptPayload_accepts_16_byte_key :
    (⟨List.replicate 16 1, List.replicate 16 2⟩ : Obfuscator).key.length ≠ 32 ∧
    (⟨List.replicate 16 1, List.replicate 16 2⟩ : Obfuscator).encryptPayload xorBlock []
      = Run.ret (some (List.replicate 16 19), none) ∧
    ((⟨List.replicate 16 1, List.replicate 16 2⟩ : Obfuscator).ObfuscatePayload xorBlock [] []).1
      = Run.ret (some ([0, 0, 0, 48] ++ List.replicate 16 0 ++ List.replicate 16 19
          ++ List.replicate 16 0), none) := by
  decide

/-- C6, amended. For every obfuscator whose key length is none of 16, 24 and 32
and every payload, `encryptPayload` returns no bytes and the error
`aes.KeySizeError` of `aes.NewCipher`, and `ObfuscatePayload` returns the same
error and no output, without drawing from the random reader. -/
theorem encryptPayload_key_size_error (o : Obfuscator) (E : BlockFn) (rng : RandReader)
    (payload : Bytes)
    (hk : o.key.length ≠ 16 ∧ o.key.length ≠ 24 ∧ o.key.length ≠ 32) :
    o.encryptPayload E payload = Run.ret (none, some (GoError.keySizeError o.key.length)) ∧
    o.ObfuscatePayload E rng payload
      = (Run.ret (none, some (GoError.keySizeError o.key.length)), rng) := by
  have hc : aesNewCipher o.key = some (GoError.keySizeError o.key.length) := by
    simp [aesNewCipher, hk.1, hk.2.1, hk.2.2]
  have he : o.encryptPayload E payload
      = Run.ret (none, some (GoError.keySizeError o.key.length)) := by
    unfold Obfuscator.encryptPayload
    rw [hc]
  refine ⟨he, ?_⟩
  unfold Obfuscator.ObfuscatePayload
  rw [he]

/-- C6, evaluated: a 31-byte key is refused. -/
theorem encryptPayload_key_size_error_witness :
    ((List.replicate 31 1).length ≠ 16 ∧ (List.replicate 31 1).length ≠ 24
      ∧ (List.replicate 31 1).length ≠ 32) ∧
    (⟨List.replicate 31 1, List.replicate 16 2⟩ : Obfuscator).encryptPayload xorBlock [9]
      = Run.ret (none, some (GoError.keySizeError 31)) ∧
    (⟨List.replicate 31 1, List.replicate 16 2⟩ : Obfuscator).ObfuscatePayload xorBlock [] [9]
      = (Run.ret (none, some (GoError.keySizeError 31)), []) :=
  ⟨by decide,
   encryptPayload_key_size_error ⟨List.replicate 31 1, List.replicate 16 2⟩ xorBlock [] [9]
    (by decide)⟩

/-! ### Jitter -/

theorem readFull_length (rng : RandReader) (buf : Bytes) :
    (readFull rng buf).1.length = buf.length := by
  cases rng with
  | nil => simp [readFull]
  | cons d rest => simp [readFull, copyInto_length]

theorem readFull_full (d : Bytes) (rest : RandReader) (buf : Bytes) (h : buf.length ≤ d.length) :
    readFull (d :: rest) buf = (d.take buf.length, none, rest) := by
  have h1 : buf.drop d.length = [] := List.drop_of_length_le h
  have h2 : ¬ d.length < buf.length := by omega
  simp [readFull, copyInto, h1, h2]

theorem addJitterData_length (o : Obfuscator) (rng : RandReader) (X : Bytes) :
    (o.addJitterData rng X).1.length = X.length + 32 := by
  simp only [Obfuscator.addJitterData, List.nil_append, List.length_append, readFull_length,
    List.length_replicate]
  omega

/-- C7, the code at a failing input. With a random reader that delivers no
bytes, both `io.ReadFull` calls of `addJitterData` report an error, and
`ObfuscatePayload` still returns 52 output bytes and a nil error; the jitter
bytes of the output are the zero bytes of the unfilled buffer. -/
theorem ObfuscatePayload_ignores_read_error :
    (readFull [] (List.replicate 16 0)).2.1 = some GoError.readError ∧
    (readFull (readFull [] (List.replicate 16 0)).2.2 (readFull [] (List.replicate 16 0)).1).2.1
      = some GoError.readError ∧
    (⟨List.replicate 32 1, List.replicate 16 2⟩ : Obfuscator).ObfuscatePayload xorBlock [] []
      = (Run.ret (some ([0, 0, 0, 48] ++ List.replicate 16 0 ++ List.replicate 16 19
          ++ List.replicate 16 0), none), []) := by
  decide

/-- C8. For every ciphertext `X`, `addJitterData(X)` is `r1 ++ X ++ r2`, where
`r1` is the 16-byte buffer after the first `io.ReadFull` on the random reader
and `r2` the same buffer after the second; `X` stands unchanged at offset 16
and the length is `len(X) + 32` always. When the reader delivers both draws
in full, `r1` and `r2` are the first and the second draw. -/
theorem addJitterData_shape (o : Obfuscator) (rng : RandReader) (X : Bytes) :
    (o.addJitterData rng X).1
        = (readFull rng (List.replicate 16 0)).1 ++ X
          ++ (readFull (readFull rng (List.replicate 16 0)).2.2
                (readFull rng (List.replicate 16 0)).1).1 ∧
    (o.addJitterData rng X).2
        = (readFull (readFull rng (List.replicate 16 0)).2.2
                (readFull rng (List.replicate 16 0)).1).2.2 ∧
    (readFull rng (List.replicate 16 0)).1.length = 16 ∧
    (readFull (readFull rng (List.replicate 16 0)).2.2
        (readFull rng (List.replicate 16 0)).1).1.length = 16 ∧
    ((o.addJitterData rng X).1.drop 16).take X.length = X ∧
    (o.addJitterData rng X).1.length = X.length + 32 ∧
    (∀ (d1 d2 : Bytes) (rest : RandReader), rng = d1 :: d2 :: rest →
      d1.length = 16 → d2.length = 16 →
      o.addJitterData rng X = (d1 ++ X ++ d2, rest)) := by
  have h1 : (readFull rng (List.replicate 16 0)).1.length = 16 := by
    rw [readFull_length]; simp
  have h2 : (readFull (readFull rng (List.replicate 16 0)).2.2
      (readFull rng (List.replicate 16 0)).1).1.length = 16 := by
    rw [readFull_length, h1]
  refine ⟨by simp [Obfuscator.addJitterData], by simp [Obfuscator.addJitterData], h1, h2, ?_,
    addJitterData_length o rng X, ?_⟩
  · have e : (o.addJitterData rng X).1
        = (readFull rng (List.replicate 16 0)).1
          ++ (X ++ (readFull (readFull rng (List.replicate 16 0)).2.2
                (readFull rng (List.replicate 16 0)).1).1) := by
      simp [Obfuscator.addJitterData]
    rw [e, List.drop_left' h1]
    exact List.take_left' rfl
  · intro d1 d2 rest hr hd1 hd2
    subst hr
    have e1 : readFull (d1 :: d2 :: rest) (List.replicate 16 0) = (d1, none, d2 :: rest) := by
      rw [readFull_full _ _ _ (by simp [hd1])]
      simp [← hd1]
    have e2 : readFull (d2 :: rest) d1 = (d2, none, rest) := by
      rw [readFull_full _ _ _ (by omega)]
      simp [hd1, ← hd2]
    unfold Obfuscator.addJitterData
    simp only [e1, e2, List.nil_append]

/-- C8, evaluated: two full draws around a three-byte ciphertext. -/
theorem addJitterData_shape_witness :
    (⟨[], []⟩ : Obfuscator).addJitterData [List.replicate 16 5, List.replicate 16 6] [1, 2, 3]
      = (List.replicate 16 5 ++ [1, 2, 3] ++ List.replicate 16 6, []) :=
  (addJitterData_shape ⟨[], []⟩ [List.replicate 16 5, List.replicate 16 6] [1, 2, 3]).2.2.2.2.2.2
    (List.replicate 16 5) (List.replicate 16 6) [] rfl (by decide) (by decide)

/-! ### The whole pipeline -/

theorem framesOf_length : ∀ (cs : List Bytes), (framesOf cs).length = cs.length := by
  intro cs
  induction cs with
  | nil => simp [framesOf]
  | cons c rest ih =>
    cases rest with
    | nil => simp [framesOf]
    | cons d rest => simp only [framesOf, List.length_cons, ih]

theorem framesOf_markers : ∀ (cs : List Bytes),
    ((framesOf cs).filter (fun f => f.hasMarker)).length = cs.length - 1 := by
  intro cs
  induction cs with
  | nil => simp [framesOf]
  | cons c rest ih =>
    cases rest with
    | nil => simp [framesOf]
    | cons d rest =>
      simp only [framesOf, List.filter_cons_of_pos, List.length_cons, ih]
      simp

theorem sum_frame_lengths : ∀ (cs : List Bytes),
    (cs.map (fun c => 4 + c.length)).sum = 4 * cs.length + (cs.map List.length).sum := by
  intro cs
  induction cs with
  | nil => simp
  | cons c rest ih => simp only [List.map_cons, List.sum_cons, List.length_cons, ih]; omega

theorem ObfuscatePayload_eq (o : Obfuscator) (E : BlockFn) (rng : RandReader) (payload : Bytes)
    (hk : o.key.length = 16 ∨ o.key.length = 24 ∨ o.key.length = 32)
    (hiv : o.iv.length = 16) :
    ∃ enc : Bytes, o.encryptPayload E payload = Run.ret (some enc, none) ∧
      enc.length = 16 * (payload.length / 16 + 1) ∧
      o.ObfuscatePayload E rng payload
        = (Run.ret (some (o.assembleWithMarkers
              (chunkList 128 (o.addJitterData rng enc).1.length (o.addJitterData rng enc).1)),
            none), (o.addJitterData rng enc).2) := by
  obtain ⟨enc, he, hl⟩ := encryptPayload_ok o E payload hk hiv
  refine ⟨enc, he, hl, ?_⟩
  unfold Obfuscator.ObfuscatePayload
  rw [he]
  simp only [Option.getD_some]
  rw [splitIntoChunks_eq o _ 128 (by decide)]

/-- C9. For every payload of length `n` and every obfuscator with a 32-byte key
and a 16-byte IV, `ObfuscatePayload` returns output bytes and a nil error; with
`L = 16 * (n / 16 + 1) + 32` the jittered length, the output is the
serialisation of `ceil(L / 128) ≥ 1` frames, `ceil(L / 128) - 1` of them with a
marker, and is `L + 8 * ceil(L / 128) - 4` bytes long. An empty payload gives
one 48-byte chunk, 52 bytes and no marker; a 16-byte payload gives one 64-byte
chunk, 68 bytes and no marker. -/
theorem ObfuscatePayload_output_length (o : Obfuscator) (E : BlockFn) (rng : RandReader)
    (payload : Bytes) (hk : o.key.length = 32) (hiv : o.iv.length = 16) :
    ∃ (out : Bytes) (chunks : List Bytes) (rng2 : RandReader),
      o.ObfuscatePayload E rng payload = (Run.ret (some out, none), rng2) ∧
      out = encodeFrames (framesOf chunks) ∧
      chunks.flatten.length = 16 * (payload.length / 16 + 1) + 32 ∧
      (framesOf chunks).length = (16 * (payload.length / 16 + 1) + 32 + 127) / 128 ∧
      1 ≤ (framesOf chunks).length ∧
      ((framesOf chunks).filter (fun f => f.hasMarker)).length
        = (16 * (payload.length / 16 + 1) + 32 + 127) / 128 - 1 ∧
      out.length = 16 * (payload.length / 16 + 1) + 32
        + 8 * ((16 * (payload.length / 16 + 1) + 32 + 127) / 128) - 4 ∧
      (payload.length = 0 → chunks.map List.length = [48] ∧ out.length = 52 ∧
        ((framesOf chunks).filter (fun f => f.hasMarker)).length = 0) ∧
      (payload.length = 16 → chunks.map List.length = [64] ∧ out.length = 68 ∧
        ((framesOf chunks).filter (fun f => f.hasMarker)).length = 0) := by
  obtain ⟨enc, _, hl, ho⟩ := ObfuscatePayload_eq o E rng payload (Or.inr (Or.inr hk)) hiv
  have hJ : (o.addJitterData rng enc).1.length = 16 * (payload.length / 16 + 1) + 32 := by
    rw [addJitterData_length, hl]
  generalize (o.addJitterData rng enc).1 = J at ho hJ
  generalize hL : 16 * (payload.length / 16 + 1) + 32 = L at hJ
  have hflat : (chunkList 128 J.length J).flatten = J :=
    chunkList_flatten 128 (by decide) _ _ (Nat.le_refl _)
  have hcount : (chunkList 128 J.length J).length = (L + 127) / 128 := by
    rw [chunkList_length 128 (by decide) _ _ (Nat.le_refl _), hJ]
    rfl
  have hsmall : ∀ c ∈ chunkList 128 J.length J, c.length < 2 ^ 32 := by
    intro c hc
    have := (chunkList_mem_length 128 (by decide) _ _ c hc).2
    omega
  have hsum : ((chunkList 128 J.length J).map List.length).sum = L := by
    rw [← List.length_flatten, hflat, hJ]
  have hpos : 1 ≤ (L + 127) / 128 := by omega
  have hlen : (o.assembleWithMarkers (chunkList 128 J.length J)).length
      = L + 8 * ((L + 127) / 128) - 4 := by
    rw [assembleWithMarkers_length, sum_frame_lengths, hsum, hcount]
    omega
  have hone : (L + 127) / 128 = 1 → (chunkList 128 J.length J).map List.length = [L] := by
    intro h1
    rw [h1] at hcount
    obtain ⟨c, hc⟩ := List.length_eq_one.mp hcount
    rw [hc] at hsum ⊢
    simpa using hsum
  refine ⟨_, chunkList 128 J.length J, _, ho, assembleWithMarkers_frames o _ hsmall, ?_, ?_, ?_,
    ?_, hlen, ?_, ?_⟩
  · rw [hflat, hJ]
  · rw [framesOf_length, hcount]
  · rw [framesOf_length, hcount]; exact hpos
  · rw [framesOf_markers, hcount]
  · intro h0
    have hL48 : L = 48 := by omega
    subst hL48
    exact ⟨hone (by decide), by rw [hlen], by rw [framesOf_markers, hcount]⟩
  · intro h16
    have hL64 : L = 64 := by omega
    subst hL64
    exact ⟨hone (by decide), by rw [hlen], by rw [framesOf_markers, hcount]⟩

/-- C9, evaluated: an empty payload and a 16-byte payload, with a random
reader that delivers two full draws. -/
theorem ObfuscatePayload_output_length_witness :
    ((List.replicate 32 1).length = 32 ∧ (List.replicate 16 2).length = 16) ∧
    ((⟨List.replicate 32 1, List.replicate 16 2⟩ : Obfuscator).ObfuscatePayload xorBlock
        [List.replicate 16 5, List.replicate 16 6] []).1
      = Run.ret (some ([0, 0, 0, 48] ++ List.replicate 16 5 ++ List.replicate 16 19
          ++ List.replicate 16 6), none) ∧
    (∃ (out : Bytes) (chunks : List Bytes) (rng2 : RandReader),
      (⟨List.replicate 32 1, List.replicate 16 2⟩ : Obfuscator).ObfuscatePayload xorBlock
          [List.replicate 16 5, List.replicate 16 6] [] = (Run.ret (some out, none), rng2) ∧
      chunks.map List.length = [48] ∧ out.length = 52 ∧
      ((framesOf chunks).filter (fun f => f.hasMarker)).length = 0) ∧
    (∃ (out : Bytes) (chunks : List Bytes) (rng2 : RandReader),
      (⟨List.replicate 32 1, List.replicate 16 2⟩ : Obfuscator).ObfuscatePayload xorBlock
          [List.replicate 16 5, List.replicate 16 6] (List.replicate 16 7)
        = (Run.ret (some out, none), rng2) ∧
      chunks.map List.length = [64] ∧ out.length = 68 ∧
      ((framesOf chunks).filter (fun f => f.hasMarker)).length = 0) := by
  refine ⟨⟨by decide, by decide⟩, by decide, ?_, ?_⟩
  · obtain ⟨out, chunks, rng2, h, _, _, _, _, _, _, h0, _⟩ :=
      ObfuscatePayload_output_length ⟨List.replicate 32 1, List.replicate 16 2⟩ xorBlock
        [List.replicate 16 5, List.replicate 16 6] [] (by decide) (by decide)
    exact ⟨out, chunks, rng2, h, h0 rfl⟩
  · obtain ⟨out, chunks, rng2, h, _, _, _, _, _, _, _, h16⟩ :=
      ObfuscatePayload_output_length ⟨List.replicate 32 1, List.replicate 16 2⟩ xorBlock
        [List.replicate 16 5, List.replicate 16 6] (List.replicate 16 7) (by decide) (by decide)
    exact ⟨out, chunks, rng2, h, h16 (by decide)⟩

theorem chunkList_nil (C n : Nat) : chunkList C n [] = [] := by
  cases n <;> simp [chunkList]

theorem chunkList_cons (C n : Nat) (xs : Bytes) (h : xs ≠ []) :
    chunkList C (n + 1) xs = xs.take C :: chunkList C n (xs.drop C) := by
  simp [chunkList, h]

theorem take_drop_mid (pre mid post : Bytes) (n k : Nat) (h1 : pre.length = n)
    (h2 : mid.length = k) : ((pre ++ mid ++ post).drop n).take k = mid := by
  rw [List.append_assoc, List.drop_left' h1]
  exact List.take_left' h2

theorem chunkList_336 (J : Bytes) (h : J.length = 336) :
    chunkList 128 J.length J = [J.take 128, (J.drop 128).take 128, (J.drop 256).take 128] := by
  have ne : ∀ k, k < 336 → J.drop k ≠ [] := by
    intro k hk h0
    have := congrArg List.length h0
    simp at this
    omega
  have h0 : J ≠ [] := by simpa using ne 0 (by decide)
  have h3 : (J.drop 256).drop 128 = [] := by
    apply List.drop_of_length_le
    simp; omega
  rw [h, show (336 : Nat) = 333 + 1 + 1 + 1 from rfl, chunkList_cons _ _ _ h0,
    chunkList_cons _ _ _ (ne 128 (by decide))]
  rw [List.drop_drop, chunkList_cons _ _ _ (ne 256 (by decide)), h3, chunkList_nil]

/-- C10. For every 300-byte payload, with a 32-byte key and a 16-byte IV: the
padding is 4 bytes of value 4 (304 bytes), the encrypted length is 304, the
jittered length is 336, the chunks have sizes 128, 128 and 80, and the output
is 356 bytes long, with the length fields `00 00 00 80` at offsets 0 and 136
and `00 00 00 50` at offset 272, the marker `DE AD BE EF` at offsets 132 and
268, and nothing after the 80 bytes of the third frame. -/
theorem ObfuscatePayload_scenario_300 (o : Obfuscator) (E : BlockFn) (rng : RandReader)
    (payload : Bytes) (hk : o.key.length = 32) (hiv : o.iv.length = 16)
    (hn : payload.length = 300) :
    o.pkcs7Padding payload 16 = Run.ret (payload ++ [4, 4, 4, 4]) ∧
    (payload ++ [4, 4, 4, 4]).length = 304 ∧
    ∃ (enc c1 c2 c3 out : Bytes),
      o.encryptPayload E payload = Run.ret (some enc, none) ∧ enc.length = 304 ∧
      (o.addJitterData rng enc).1.length = 336 ∧
      o.splitIntoChunks (o.addJitterData rng enc).1 128 = Run.ret [c1, c2, c3] ∧
      c1.length = 128 ∧ c2.length = 128 ∧ c3.length = 80 ∧
      o.ObfuscatePayload E rng payload = (Run.ret (some out, none), (o.addJitterData rng enc).2) ∧
      out = [0, 0, 0, 0x80] ++ c1 ++ [0xDE, 0xAD, 0xBE, 0xEF]
          ++ [0, 0, 0, 0x80] ++ c2 ++ [0xDE, 0xAD, 0xBE, 0xEF]
          ++ [0, 0, 0, 0x50] ++ c3 ∧
      out.length = 356 ∧
      out.take 4 = [0, 0, 0, 0x80] ∧
      (out.drop 132).take 4 = [0xDE, 0xAD, 0xBE, 0xEF] ∧
      (out.drop 136).take 4 = [0, 0, 0, 0x80] ∧
      (out.drop 268).take 4 = [0xDE, 0xAD, 0xBE, 0xEF] ∧
      (out.drop 272).take 4 = [0, 0, 0, 0x50] ∧
      out.drop 276 = c3 := by
  obtain ⟨enc, he, hl, ho⟩ := ObfuscatePayload_eq o E rng payload (Or.inr (Or.inr hk)) hiv
  have hpad : o.pkcs7Padding payload 16 = Run.ret (payload ++ [4, 4, 4, 4]) := by
    rw [pkcs7Padding_eq, hn]; rfl
  have hl2 : enc.length = 304 := by rw [hl, hn]
  have hJ : (o.addJitterData rng enc).1.length = 336 := by rw [addJitterData_length, hl2]
  refine ⟨hpad, by simp [hn], enc, ?_⟩
  generalize (o.addJitterData rng enc).1 = J at ho hJ ⊢
  have hch := chunkList_336 J hJ
  have l1 : (J.take 128).length = 128 := by simp; omega
  have l2 : ((J.drop 128).take 128).length = 128 := by simp; omega
  have l3 : ((J.drop 256).take 128).length = 80 := by simp; omega
  have p128 : putUint32 (128 % 2 ^ 32) = [0, 0, 0, 0x80] := by decide
  have p80 : putUint32 (80 % 2 ^ 32) = [0, 0, 0, 0x50] := by decide
  have hout : o.assembleWithMarkers (chunkList 128 J.length J)
      = [0, 0, 0, 0x80] ++ J.take 128 ++ [0xDE, 0xAD, 0xBE, 0xEF]
          ++ [0, 0, 0, 0x80] ++ (J.drop 128).take 128 ++ [0xDE, 0xAD, 0xBE, 0xEF]
          ++ [0, 0, 0, 0x50] ++ (J.drop 256).take 128 := by
    rw [hch, assembleWithMarkers_cons_cons, assembleWithMarkers_cons_cons,
      assembleWithMarkers_single, l1, l2, l3, p128, p80]
    simp only [marker, List.append_assoc]
  refine ⟨J.take 128, (J.drop 128).take 128, (J.drop 256).take 128, _, he, hl2, hJ, ?_,
    l1, l2, l3, ho, hout, ?_, ?_, ?_, ?_, ?_, ?_, ?_⟩
  · rw [splitIntoChunks_eq o J 128 (by decide), hch]
  · rw [hout]; simp only [List.length_append, l1, l2, l3, List.length_cons, List.length_nil]
  · rw [hout]; simp
  · rw [hout]
    have := take_drop_mid ([0, 0, 0, 0x80] ++ J.take 128) [0xDE, 0xAD, 0xBE, 0xEF]
      ([0, 0, 0, 0x80] ++ (J.drop 128).take 128 ++ [0xDE, 0xAD, 0xBE, 0xEF]
          ++ [0, 0, 0, 0x50] ++ (J.drop 256).take 128) 132 4
      (by simp only [List.length_append, l1, List.length_cons, List.length_nil]) rfl
    simpa only [List.append_assoc] using this
  · rw [hout]
    have := take_drop_mid ([0, 0, 0, 0x80] ++ J.take 128 ++ [0xDE, 0xAD, 0xBE, 0xEF])
      [0, 0, 0, 0x80]
      ((J.drop 128).take 128 ++ [0xDE, 0xAD, 0xBE, 0xEF]
          ++ [0, 0, 0, 0x50] ++ (J.drop 256).take 128) 136 4
      (by simp only [List.length_append, l1, List.length_cons, List.length_nil]) rfl
    simpa only [List.append_assoc] using this
  · rw [hout]
    have := take_drop_mid ([0, 0, 0, 0x80] ++ J.take 128 ++ [0xDE, 0xAD, 0xBE, 0xEF]
        ++ [0, 0, 0, 0x80] ++ (J.drop 128).take 128)
      [0xDE, 0xAD, 0xBE, 0xEF]
      ([0, 0, 0, 0x50] ++ (J.drop 256).take 128) 268 4
      (by simp only [List.length_append, l1, l2, List.length_cons, List.length_nil]) rfl
    simpa only [List.append_assoc] using this
  · rw [hout]
    have := take_drop_mid ([0, 0, 0, 0x80] ++ J.take 128 ++ [0xDE, 0xAD, 0xBE, 0xEF]
        ++ [0, 0, 0, 0x80] ++ (J.drop 128).take 128 ++ [0xDE, 0xAD, 0xBE, 0xEF])
      [0, 0, 0, 0x50]
      ((J.drop 256).take 128) 272 4
      (by simp only [List.length_append, l1, l2, List.length_cons, List.length_nil]) rfl
    simpa only [List.append_assoc] using this
  · rw [hout]
    exact List.drop_left' (by
      simp only [List.length_append, l1, l2, List.length_cons, List.length_nil])

/-- C10, evaluated: 300 bytes of value 65 under a fixed key, IV and two full
draws of the random reader. -/
theorem ObfuscatePayload_scenario_300_witness :
    ((List.replicate 32 1).length = 32 ∧ (List.replicate 16 2).length = 16
      ∧ (List.replicate 300 65).length = 300) ∧
    (⟨List.replicate 32 1, List.replicate 16 2⟩ : Obfuscator).pkcs7Padding
        (List.replicate 300 65) 16 = Run.ret (List.replicate 300 65 ++ [4, 4, 4, 4]) ∧
    ∃ (out : Bytes) (rng2 : RandReader),
      (⟨List.replicate 32 1, List.replicate 16 2⟩ : Obfuscator).ObfuscatePayload xorBlock
          [List.replicate 16 5, List.replicate 16 6] (List.replicate 300 65)
        = (Run.ret (some out, none), rng2) ∧
      out.length = 356 ∧
      out.take 4 = [0, 0, 0, 0x80] ∧
      (out.drop 132).take 4 = [0xDE, 0xAD, 0xBE, 0xEF] ∧
      (out.drop 136).take 4 = [0, 0, 0, 0x80] ∧
      (out.drop 268).take 4 = [0xDE, 0xAD, 0xBE, 0xEF] ∧
      (out.drop 272).take 4 = [0, 0, 0, 0x50] := by
  obtain ⟨hp, _, enc, c1, c2, c3, out, _, _, _, _, _, _, _, ho, _, hlen, h0, h132, h136, h268,
      h272, _⟩ :=
    ObfuscatePayload_scenario_300 ⟨List.replicate 32 1, List.replicate 16 2⟩ xorBlock
      [List.replicate 16 5, List.replicate 16 6] (List.replicate 300 65)
      (List.length_replicate _ _) (List.length_replicate _ _) (List.length_replicate _ _)
  exact ⟨⟨List.length_replicate _ _, List.length_replicate _ _, List.length_replicate _ _⟩, hp,
    out, _, ho, hlen, h0, h132, h136, h268, h272⟩

/-! ### Encryption length, key material, chunk count -/

/-- C11. For every payload `P` and every obfuscator with a 32-byte key and a
16-byte IV, `encryptPayload(P)` returns ciphertext and a nil error, and the
ciphertext is exactly as long as `pkcs7Padding(P, 16)`. -/
theorem encryptPayload_length (o : Obfuscator) (E : BlockFn) (P : Bytes)
    (hk : o.key.length = 32) (hiv : o.iv.length = 16) :
    ∃ (enc padded : Bytes),
      o.encryptPayload E P = Run.ret (some enc, none) ∧
      o.pkcs7Padding P 16 = Run.ret padded ∧
      enc.length = padded.length := by
  obtain ⟨enc, he, hl⟩ := encryptPayload_ok o E P (Or.inr (Or.inr hk)) hiv
  refine ⟨enc, _, he, pkcs7Padding_eq o P, ?_⟩
  rw [hl]
  simp only [List.length_append, List.length_replicate]
  omega

/-- C11, evaluated: a three-byte payload is encrypted to one block. -/
theorem encryptPayload_length_witness :
    ((List.replicate 32 1).length = 32 ∧ (List.replicate 16 2).length = 16) ∧
    (⟨List.replicate 32 1, List.replicate 16 2⟩ : Obfuscator).encryptPayload xorBlock [7, 8, 9]
      = Run.ret (some [4, 11, 10, 14, 14, 14, 14, 14, 14, 14, 14, 14, 14, 14, 14, 14], none) ∧
    ∃ (enc padded : Bytes),
      (⟨List.replicate 32 1, List.replicate 16 2⟩ : Obfuscator).encryptPayload xorBlock [7, 8, 9]
        = Run.ret (some enc, none) ∧
      (⟨List.replicate 32 1, List.replicate 16 2⟩ : Obfuscator).pkcs7Padding [7, 8, 9] 16
        = Run.ret padded ∧
      enc.length = padded.length :=
  ⟨⟨by decide, by decide⟩, by decide,
   encryptPayload_length ⟨List.replicate 32 1, List.replicate 16 2⟩ xorBlock [7, 8, 9]
    (by decide) (by decide)⟩

theorem readFull_short (d : Bytes) (rest : RandReader) (buf : Bytes) (h : d.length < buf.length) :
    (readFull (d :: rest) buf).2 = (some GoError.readError, rest) := by
  simp [readFull, h]

/-- C12. `NewObfuscator` draws 32 bytes for the key and then 16 bytes for the
IV from the random reader. If both draws succeed it returns an obfuscator
whose key is the 32 drawn bytes and whose IV is the 16 drawn bytes, with a nil
error; if the first or the second draw fails it returns that error and a nil
obfuscator. -/
theorem NewObfuscator_key_material (rng : RandReader) :
    (∀ (d1 d2 : Bytes) (rest : RandReader), rng = d1 :: d2 :: rest →
      d1.length = 32 → d2.length = 16 →
      NewObfuscator rng = ((some ⟨d1, d2⟩, none), rest)) ∧
    (∀ err, (readFull rng (List.replicate 32 0)).2.1 = some err →
      NewObfuscator rng = ((none, some err), (readFull rng (List.replicate 32 0)).2.2)) ∧
    ((readFull rng (List.replicate 32 0)).2.1 = none →
      ∀ err, (readFull (readFull rng (List.replicate 32 0)).2.2 (List.replicate 16 0)).2.1
          = some err →
        NewObfuscator rng = ((none, some err),
          (readFull (readFull rng (List.replicate 32 0)).2.2 (List.replicate 16 0)).2.2)) ∧
    (∀ (d : Bytes) (rest : RandReader), rng = d :: rest → d.length < 32 →
      NewObfuscator rng = ((none, some GoError.readError), rest)) ∧
    (∀ (d1 d2 : Bytes) (rest : RandReader), rng = d1 :: d2 :: rest →
      d1.length = 32 → d2.length < 16 →
      NewObfuscator rng = ((none, some GoError.readError), rest)) ∧
    (∀ (ob : Option Obfuscator) (e : Option GoError) (rng2 : RandReader),
      NewObfuscator rng = ((ob, e), rng2) →
        (∃ o, ob = some o ∧ e = none ∧ o.key.length = 32 ∧ o.iv.length = 16) ∨
        (ob = none ∧ ∃ err, e = some err)) := by
  have hfail1 : ∀ err, (readFull rng (List.replicate 32 0)).2.1 = some err →
      NewObfuscator rng = ((none, some err), (readFull rng (List.replicate 32 0)).2.2) := by
    intro err h
    unfold NewObfuscator
    simp only [h]
  have hfail2 : (readFull rng (List.replicate 32 0)).2.1 = none →
      ∀ err, (readFull (readFull rng (List.replicate 32 0)).2.2 (List.replicate 16 0)).2.1
          = some err →
        NewObfuscator rng = ((none, some err),
          (readFull (readFull rng (List.replicate 32 0)).2.2 (List.replicate 16 0)).2.2) := by
    intro h1 err h2
    unfold NewObfuscator
    simp only [h1, aesBlockSize, h2]
  have hok : (readFull rng (List.replicate 32 0)).2.1 = none →
      (readFull (readFull rng (List.replicate 32 0)).2.2 (List.replicate 16 0)).2.1 = none →
      NewObfuscator rng = ((some ⟨(readFull rng (List.replicate 32 0)).1,
          (readFull (readFull rng (List.replicate 32 0)).2.2 (List.replicate 16 0)).1⟩, none),
        (readFull (readFull rng (List.replicate 32 0)).2.2 (List.replicate 16 0)).2.2) := by
    intro h1 h2
    unfold NewObfuscator
    simp only [h1, aesBlockSize, h2]
  refine ⟨?_, hfail1, hfail2, ?_, ?_, ?_⟩
  · intro d1 d2 rest hr hd1 hd2
    subst hr
    have e1 : readFull (d1 :: d2 :: rest) (List.replicate 32 0) = (d1, none, d2 :: rest) := by
      rw [readFull_full _ _ _ (by simp [hd1])]
      simp [← hd1]
    have e2 : readFull (d2 :: rest) (List.replicate 16 0) = (d2, none, rest) := by
      rw [readFull_full _ _ _ (by simp [hd2])]
      simp [← hd2]
    have := hok (by rw [e1]) (by rw [e1, e2])
    rw [this, e1, e2]
  · intro d rest hr hd
    subst hr
    have e := readFull_short d rest (List.replicate 32 0) (by simpa using hd)
    have := hfail1 GoError.readError (by rw [e])
    rw [this, e]
  · intro d1 d2 rest hr hd1 hd2
    subst hr
    have e1 : readFull (d1 :: d2 :: rest) (List.replicate 32 0) = (d1, none, d2 :: rest) := by
      rw [readFull_full _ _ _ (by simp [hd1])]
      simp [← hd1]
    have e2 := readFull_short d2 rest (List.replicate 16 0) (by simpa using hd2)
    have := hfail2 (by rw [e1]) GoError.readError (by rw [e1, e2])
    rw [this, e1, e2]
  · intro ob e rng2 h
    cases h1 : (readFull rng (List.replicate 32 0)).2.1 with
    | some err =>
      rw [hfail1 err h1] at h
      simp only [Prod.mk.injEq] at h
      exact Or.inr ⟨h.1.1.symm, err, h.1.2.symm⟩
    | none =>
      cases h2 : (readFull (readFull rng (List.replicate 32 0)).2.2
          (List.replicate 16 0)).2.1 with
      | some err =>
        rw [hfail2 h1 err h2] at h
        simp only [Prod.mk.injEq] at h
        exact Or.inr ⟨h.1.1.symm, err, h.1.2.symm⟩
      | none =>
        rw [hok h1 h2] at h
        simp only [Prod.mk.injEq] at h
        refine Or.inl ⟨_, h.1.1.symm, h.1.2.symm, ?_, ?_⟩
        · simp [readFull_length]
        · simp [readFull_length]

/-- C12, evaluated: two full draws give the obfuscator made of them, and a
short first draw gives the read error. -/
theorem NewObfuscator_key_material_witness :
    NewObfuscator [List.replicate 32 9, List.replicate 16 8, [1]]
      = ((some ⟨List.replicate 32 9, List.replicate 16 8⟩, none), [[1]]) ∧
    NewObfuscator [List.replicate 31 9, List.replicate 16 8]
      = ((none, some GoError.readError), [List.replicate 16 8]) :=
  ⟨(NewObfuscator_key_material [List.replicate 32 9, List.replicate 16 8, [1]]).1
      (List.replicate 32 9) (List.replicate 16 8) [[1]] rfl (by decide) (by decide),
   (NewObfuscator_key_material [List.replicate 31 9, List.replicate 16 8]).2.2.2.1
      (List.replicate 31 9) [List.replicate 16 8] rfl (by decide)⟩

theorem chunkList_all_full (C : Nat) :
    ∀ (n : Nat) (xs c : Bytes), xs.length % C = 0 → c ∈ chunkList C n xs → c.length = C := by
  intro n
  induction n with
  | zero => intro xs c _ h; simp [chunkList] at h
  | succ n ih =>
    intro xs c hm h
    by_cases hx : xs = []
    · simp [chunkList, hx] at h
    · have hp : 0 < xs.length := List.length_pos.mpr hx
      have hle : C ≤ xs.length := Nat.le_of_dvd hp (Nat.dvd_of_mod_eq_zero hm)
      simp only [chunkList, hx, if_false, List.mem_cons] at h
      rcases h with h | h
      · subst h; simp; omega
      · apply ih (xs.drop C) c _ h
        rw [List.length_drop, ← Nat.mod_eq_sub_mod hle]
        exact hm

theorem ceil_div_of_dvd (L C : Nat) (hC : 0 < C) (h : L % C = 0) : (L + C - 1) / C = L / C := by
  obtain ⟨k, hk⟩ := Nat.dvd_of_mod_eq_zero h
  subst hk
  have e : C * k + C - 1 = (C - 1) + C * k := by omega
  rw [e, Nat.add_mul_div_left _ _ hC, Nat.div_eq_of_lt (by omega), Nat.mul_div_cancel_left _ hC]
  omega

/-- C13. For every byte sequence `J` and chunk size `C > 0`, `splitIntoChunks`
returns exactly `ceil(len(J) / C)` chunks: no chunk when `J` is empty, and when
`len(J)` is a positive multiple of `C` exactly `len(J) / C` chunks, all of
length `C`, with no empty chunk at the end. -/
theorem splitIntoChunks_count (o : Obfuscator) (J : Bytes) (C : Nat) (hC : 0 < C) :
    ∃ chunks : List Bytes,
      o.splitIntoChunks J C = Run.ret chunks ∧
      chunks.length = (J.length + C - 1) / C ∧
      (J = [] → chunks = []) ∧
      (0 < J.length → J.length % C = 0 →
        chunks.length = J.length / C ∧ (∀ c ∈ chunks, c.length = C)) ∧
      (∀ c ∈ chunks, c ≠ []) := by
  have hlen := chunkList_length C hC J.length J (Nat.le_refl _)
  refine ⟨chunkList C J.length J, splitIntoChunks_eq o J C hC, hlen, ?_, ?_, ?_⟩
  · intro h; subst h; exact chunkList_nil _ _
  · intro _ hm
    exact ⟨by rw [hlen, ceil_div_of_dvd _ _ hC hm],
      fun c hc => chunkList_all_full C _ _ c hm hc⟩
  · intro c hc h0
    have := (chunkList_mem_length C hC _ _ c hc).1
    rw [h0] at this
    simp at this

/-- C13, evaluated: six bytes in chunks of three, and no byte at all. -/
theorem splitIntoChunks_count_witness :
    (⟨[], []⟩ : Obfuscator).splitIntoChunks [1, 2, 3, 4, 5, 6] 3
      = Run.ret [[1, 2, 3], [4, 5, 6]] ∧
    (⟨[], []⟩ : Obfuscator).splitIntoChunks [] 3 = Run.ret [] ∧
    0 < 3 ∧
    ∃ chunks : List Bytes,
      (⟨[], []⟩ : Obfuscator).splitIntoChunks [1, 2, 3, 4, 5, 6] 3 = Run.ret chunks ∧
      chunks.length = (([1, 2, 3, 4, 5, 6] : Bytes).length + 3 - 1) / 3 ∧
      (([1, 2, 3, 4, 5, 6] : Bytes) = [] → chunks = []) ∧
      (0 < ([1, 2, 3, 4, 5, 6] : Bytes).length → ([1, 2, 3, 4, 5, 6] : Bytes).length % 3 = 0 →
        chunks.length = ([1, 2, 3, 4, 5, 6] : Bytes).length / 3 ∧ (∀ c ∈ chunks, c.length = 3)) ∧
      (∀ c ∈ chunks, c ≠ []) :=
  ⟨by decide, by decide, by decide,
   splitIntoChunks_count ⟨[], []⟩ [1, 2, 3, 4, 5, 6] 3 (by decide)⟩

/-! ### Reading the frames back -/

theorem be32Value_take_be32 (n : Nat) (h : n < 2 ^ 32) (tail : Bytes) :
    be32Value ((be32 n ++ tail).take 4) = n := by
  rw [List.take_left' (be32_length n)]
  exact be32Value_be32 n h

theorem decodeLoop_frame (fuel : Nat) (c rest : Bytes) (hc : c.length < 2 ^ 32) :
    decodeLoop (fuel + 1) (be32 c.length ++ (c ++ rest))
      = if rest = [] then some [c]
        else if rest.take 4 = marker then
          (decodeLoop fuel (rest.drop 4)).map (fun cs => c :: cs)
        else none := by
  have h1 : ¬ (be32 c.length ++ (c ++ rest)).length < 4 := by
    simp [be32_length]
  have h2 : (be32 c.length ++ (c ++ rest)).drop 4 = c ++ rest :=
    List.drop_left' (be32_length _)
  have h3 : ¬ (c ++ rest).length < c.length := by simp
  have h4 : (c ++ rest).drop c.length = rest := List.drop_left' rfl
  have h5 : (c ++ rest).take c.length = c := List.take_left' rfl
  rw [decodeLoop, if_neg h1]
  simp only [be32Value_take_be32 _ hc, h2, if_neg h3, h4, h5]

theorem decodeLoop_assemble (o : Obfuscator) :
    ∀ (cs : List Bytes), cs ≠ [] → (∀ c ∈ cs, c.length < 2 ^ 32) →
      ∀ fuel, cs.length ≤ fuel → decodeLoop fuel (o.assembleWithMarkers cs) = some cs := by
  intro cs
  induction cs with
  | nil => intro h; exact absurd rfl h
  | cons c rest ih =>
    intro _ hlen fuel hfuel
    have hc : c.length < 2 ^ 32 := hlen c (List.mem_cons_self _ _)
    cases fuel with
    | zero => simp at hfuel
    | succ fuel =>
      cases rest with
      | nil =>
        rw [assembleWithMarkers_single, putUint32_eq_be32 _ hc]
        have := decodeLoop_frame fuel c [] hc
        simpa using this
      | cons d rest =>
        have ih2 := ih (List.cons_ne_nil d rest) (fun x hx => hlen x (List.mem_cons_of_mem _ hx))
          fuel (by simpa using hfuel)
        have hne : marker ++ o.assembleWithMarkers (d :: rest) ≠ [] := by simp [marker]
        have ht : (marker ++ o.assembleWithMarkers (d :: rest)).take 4 = marker :=
          List.take_left' marker_length
        have hd : (marker ++ o.assembleWithMarkers (d :: rest)).drop 4
            = o.assembleWithMarkers (d :: rest) := List.drop_left' marker_length
        rw [assembleWithMarkers_cons_cons, putUint32_eq_be32 _ hc]
        simp only [List.append_assoc]
        rw [decodeLoop_frame fuel c _ hc, if_neg hne, if_pos ht, hd, ih2]
        rfl

theorem decodeFrames_assemble (o : Obfuscator) (cs : List Bytes)
    (hlen : ∀ c ∈ cs, c.length < 2 ^ 32) :
    decodeFrames (o.assembleWithMarkers cs) = some cs := by
  cases cs with
  | nil => simp [assembleWithMarkers_nil, decodeFrames]
  | cons c rest =>
    have hne : o.assembleWithMarkers (c :: rest) ≠ [] := by
      intro h0
      have := congrArg List.length h0
      rw [assembleWithMarkers_length] at this
      simp at this
    have hfuel : (c :: rest).length ≤ (o.assembleWithMarkers (c :: rest)).length := by
      rw [assembleWithMarkers_length, sum_frame_lengths]
      omega
    rw [decodeFrames, if_neg hne]
    exact decodeLoop_assemble o _ (List.cons_ne_nil _ _) hlen _ hfuel

theorem aesNewCipher_none (key : Bytes) (h : aesNewCipher key = none) :
    key.length = 16 ∨ key.length = 24 ∨ key.length = 32 := by
  unfold aesNewCipher at h
  by_cases hk : key.length = 16 ∨ key.length = 24 ∨ key.length = 32
  · exact hk
  · rw [if_neg hk] at h
    exact absurd h (by simp)

theorem encryptPayload_key_error (o : Obfuscator) (E : BlockFn) (payload : Bytes) (err : GoError)
    (hc : aesNewCipher o.key = some err) :
    o.encryptPayload E payload = Run.ret (none, some err) := by
  unfold Obfuscator.encryptPayload
  rw [hc]

theorem encryptPayload_bad_iv (o : Obfuscator) (E : BlockFn) (payload : Bytes)
    (hc : aesNewCipher o.key = none) (hiv : o.iv.length ≠ 16) :
    o.encryptPayload E payload = Run.panic := by
  unfold Obfuscator.encryptPayload
  rw [hc]
  simp only [aesBlockSize, ne_eq, hiv, not_false_eq_true, if_true]

theorem ObfuscatePayload_of_error (o : Obfuscator) (E : BlockFn) (rng : RandReader)
    (payload : Bytes) (enc : Option Bytes) (err : GoError)
    (he : o.encryptPayload E payload = Run.ret (enc, some err)) :
    o.ObfuscatePayload E rng payload = (Run.ret (none, some err), rng) := by
  unfold Obfuscator.ObfuscatePayload
  rw [he]

theorem ObfuscatePayload_of_panic (o : Obfuscator) (E : BlockFn) (rng : RandReader)
    (payload : Bytes) (he : o.encryptPayload E payload = Run.panic) :
    o.ObfuscatePayload E rng payload = (Run.panic, rng) := by
  unfold Obfuscator.ObfuscatePayload
  rw [he]

/-- C16. `assembleWithMarkers` is injective on chunk lists whose chunks are all
shorter than `2 ^ 32` bytes, and a reader that repeatedly takes a 4-byte
big-endian length, that many chunk bytes and, if input remains, the 4-byte
marker, gets the chunk list back from the assembled bytes, whatever bytes the
chunks hold. -/
theorem assembleWithMarkers_injective (o : Obfuscator) (cs ds : List Bytes)
    (hcs : ∀ c ∈ cs, c.length < 2 ^ 32) (hds : ∀ d ∈ ds, d.length < 2 ^ 32) :
    (o.assembleWithMarkers cs = o.assembleWithMarkers ds → cs = ds) ∧
    decodeFrames (o.assembleWithMarkers cs) = some cs := by
  refine ⟨fun h => ?_, decodeFrames_assemble o cs hcs⟩
  have h1 := decodeFrames_assemble o cs hcs
  have h2 := decodeFrames_assemble o ds hds
  rw [h, h2] at h1
  exact (Option.some.inj h1).symm

/-- C16, evaluated: chunks that hold the marker bytes are read back. -/
theorem assembleWithMarkers_injective_witness :
    decodeFrames ((⟨[], []⟩ : Obfuscator).assembleWithMarkers
        [[0xDE, 0xAD, 0xBE, 0xEF], [], [0xDE, 0xAD, 0xBE, 0xEF, 0, 0, 0, 0]])
      = some [[0xDE, 0xAD, 0xBE, 0xEF], [], [0xDE, 0xAD, 0xBE, 0xEF, 0, 0, 0, 0]] ∧
    ((∀ c ∈ ([[0xDE, 0xAD, 0xBE, 0xEF], [5]] : List Bytes), c.length < 2 ^ 32) ∧
      (∀ d ∈ ([[0xDE, 0xAD, 0xBE, 0xEF, 0, 0, 0, 1, 5]] : List Bytes), d.length < 2 ^ 32)) ∧
    ((⟨[], []⟩ : Obfuscator).assembleWithMarkers [[0xDE, 0xAD, 0xBE, 0xEF], [5]]
        = (⟨[], []⟩ : Obfuscator).assembleWithMarkers [[0xDE, 0xAD, 0xBE, 0xEF, 0, 0, 0, 1, 5]] →
      ([[0xDE, 0xAD, 0xBE, 0xEF], [5]] : List Bytes)
        = [[0xDE, 0xAD, 0xBE, 0xEF, 0, 0, 0, 1, 5]]) :=
  ⟨by decide, ⟨by decide, by decide⟩,
   (assembleWithMarkers_injective ⟨[], []⟩ [[0xDE, 0xAD, 0xBE, 0xEF], [5]]
      [[0xDE, 0xAD, 0xBE, 0xEF, 0, 0, 0, 1, 5]] (by decide) (by decide)).1⟩

theorem ObfuscatePayload_decoded (o : Obfuscator) (E : BlockFn) (rng : RandReader)
    (payload enc : Bytes) (he : o.encryptPayload E payload = Run.ret (some enc, none)) :
    ∃ (out r1 r2 : Bytes),
      (o.ObfuscatePayload E rng payload).1 = Run.ret (some out, none) ∧
      r1.length = 16 ∧ r2.length = 16 ∧
      out.length = enc.length + 32 + 8 * ((enc.length + 32 + 127) / 128) - 4 ∧
      (decodeFrames out).map List.flatten = some (r1 ++ enc ++ r2) := by
  have hJ : (o.addJitterData rng enc).1
      = (readFull rng (List.replicate 16 0)).1 ++ enc
        ++ (readFull (readFull rng (List.replicate 16 0)).2.2
              (readFull rng (List.replicate 16 0)).1).1 := by
    simp [Obfuscator.addJitterData]
  have h1 : (readFull rng (List.replicate 16 0)).1.length = 16 := by
    rw [readFull_length]; simp
  have h2 : (readFull (readFull rng (List.replicate 16 0)).2.2
      (readFull rng (List.replicate 16 0)).1).1.length = 16 := by
    rw [readFull_length, h1]
  have hJlen := addJitterData_length o rng enc
  have ho : o.ObfuscatePayload E rng payload
      = (Run.ret (some (o.assembleWithMarkers
            (chunkList 128 (o.addJitterData rng enc).1.length (o.addJitterData rng enc).1)),
          none), (o.addJitterData rng enc).2) := by
    unfold Obfuscator.ObfuscatePayload
    rw [he]
    simp only [Option.getD_some]
    rw [splitIntoChunks_eq o _ 128 (by decide)]
  generalize (o.addJitterData rng enc).1 = J at ho hJ hJlen
  have hflat : (chunkList 128 J.length J).flatten = J :=
    chunkList_flatten 128 (by decide) _ _ (Nat.le_refl _)
  have hcount : (chunkList 128 J.length J).length = (enc.length + 32 + 127) / 128 := by
    rw [chunkList_length 128 (by decide) _ _ (Nat.le_refl _), hJlen]
    rfl
  have hsmall : ∀ c ∈ chunkList 128 J.length J, c.length < 2 ^ 32 := by
    intro c hc
    have := (chunkList_mem_length 128 (by decide) _ _ c hc).2
    omega
  have hsum : ((chunkList 128 J.length J).map List.length).sum = enc.length + 32 := by
    rw [← List.length_flatten, hflat, hJlen]
  refine ⟨_, _, _, by rw [ho], h1, h2, ?_, ?_⟩
  · rw [assembleWithMarkers_length, sum_frame_lengths, hsum, hcount]
    omega
  · rw [decodeFrames_assemble o _ hsmall, Option.map_some', hflat, hJ]

theorem ObfuscatePayload_two_draws (o : Obfuscator) (E : BlockFn) (rngA rngB : RandReader)
    (payload : Bytes) :
    ((o.ObfuscatePayload E rngA payload).1 = (o.ObfuscatePayload E rngB payload).1 ∧
        ∀ out, (o.ObfuscatePayload E rngA payload).1 ≠ Run.ret (some out, none)) ∨
      ∃ (enc outA outB a1 a2 b1 b2 : Bytes),
        o.encryptPayload E payload = Run.ret (some enc, none) ∧
        (o.ObfuscatePayload E rngA payload).1 = Run.ret (some outA, none) ∧
        (o.ObfuscatePayload E rngB payload).1 = Run.ret (some outB, none) ∧
        outA.length = outB.length ∧
        a1.length = 16 ∧ a2.length = 16 ∧ b1.length = 16 ∧ b2.length = 16 ∧
        (decodeFrames outA).map List.flatten = some (a1 ++ enc ++ a2) ∧
        (decodeFrames outB).map List.flatten = some (b1 ++ enc ++ b2) := by
  cases hc : aesNewCipher o.key with
  | some err =>
    left
    have he := encryptPayload_key_error o E payload err hc
    rw [ObfuscatePayload_of_error o E rngA payload none err he,
      ObfuscatePayload_of_error o E rngB payload none err he]
    exact ⟨rfl, fun out h => by simp at h⟩
  | none =>
    by_cases hiv : o.iv.length = 16
    · right
      obtain ⟨enc, he, _⟩ := encryptPayload_ok o E payload (aesNewCipher_none _ hc) hiv
      obtain ⟨outA, a1, a2, hA, ha1, ha2, hlA, hdA⟩ := ObfuscatePayload_decoded o E rngA payload enc he
      obtain ⟨outB, b1, b2, hB, hb1, hb2, hlB, hdB⟩ := ObfuscatePayload_decoded o E rngB payload enc he
      exact ⟨enc, outA, outB, a1, a2, b1, b2, he, hA, hB, by rw [hlA, hlB], ha1, ha2, hb1, hb2,
        hdA, hdB⟩
    · left
      have he := encryptPayload_bad_iv o E payload hc hiv
      rw [ObfuscatePayload_of_panic o E rngA payload he,
        ObfuscatePayload_of_panic o E rngB payload he]
      exact ⟨rfl, fun out h => by simp at h⟩

/-- C15, counterexample. With a 32-byte key and an empty IV the call of
`ObfuscatePayload` panics (in `cipher.NewCBCEncrypter`): it returns neither
output bytes nor an error. -/
theorem ObfuscatePayload_panics_on_short_iv :
    ((⟨List.replicate 32 1, []⟩ : Obfuscator).ObfuscatePayload xorBlock [] []).1 = Run.panic ∧
    (∀ out, ((⟨List.replicate 32 1, []⟩ : Obfuscator).ObfuscatePayload xorBlock [] []).1
      ≠ Run.ret (some out, none)) ∧
    (∀ err, ((⟨List.replicate 32 1, []⟩ : Obfuscator).ObfuscatePayload xorBlock [] []).1
      ≠ Run.ret (none, some err)) := by
  have h : ((⟨List.replicate 32 1, []⟩ : Obfuscator).ObfuscatePayload xorBlock [] []).1
      = Run.panic := by decide
  refine ⟨h, fun out => ?_, fun err => ?_⟩ <;> rw [h] <;> simp

/-- C15, amended. For every obfuscator and payload `ObfuscatePayload` never
returns output bytes together with an error. When the IV is 16 bytes long, or
the key length is none of 16, 24 and 32, the call returns, either output bytes
with a nil error or a nil output with an error. When `encryptPayload` returns
an error, `ObfuscatePayload` returns exactly that error with a nil output and
makes no draw from the random reader. With a key of 16, 24 or 32 bytes and an
IV of another length than 16 the call panics. -/
theorem ObfuscatePayload_result_or_error (o : Obfuscator) (E : BlockFn) (rng : RandReader)
    (payload : Bytes) :
    (∀ out err, (o.ObfuscatePayload E rng payload).1 ≠ Run.ret (some out, some err)) ∧
    (o.iv.length = 16 ∨ aesNewCipher o.key ≠ none →
      (∃ out, (o.ObfuscatePayload E rng payload).1 = Run.ret (some out, none)) ∨
      (∃ err, (o.ObfuscatePayload E rng payload).1 = Run.ret (none, some err))) ∧
    (∀ enc err, o.encryptPayload E payload = Run.ret (enc, some err) →
      o.ObfuscatePayload E rng payload = (Run.ret (none, some err), rng)) ∧
    (aesNewCipher o.key = none → o.iv.length ≠ 16 →
      o.ObfuscatePayload E rng payload = (Run.panic, rng)) := by
  have hpanic : aesNewCipher o.key = none → o.iv.length ≠ 16 →
      o.ObfuscatePayload E rng payload = (Run.panic, rng) := fun hc hiv =>
    ObfuscatePayload_of_panic o E rng payload (encryptPayload_bad_iv o E payload hc hiv)
  have hgood : aesNewCipher o.key = none → o.iv.length = 16 →
      ∃ out, (o.ObfuscatePayload E rng payload).1 = Run.ret (some out, none) := by
    intro hc hiv
    obtain ⟨enc, he, _⟩ := encryptPayload_ok o E payload (aesNewCipher_none _ hc) hiv
    obtain ⟨out, _, _, h, _⟩ := ObfuscatePayload_decoded o E rng payload enc he
    exact ⟨out, h⟩
  have hbad : ∀ err, aesNewCipher o.key = some err →
      o.ObfuscatePayload E rng payload = (Run.ret (none, some err), rng) := fun err hc =>
    ObfuscatePayload_of_error o E rng payload none err (encryptPayload_key_error o E payload err hc)
  refine ⟨?_, ?_, ?_, hpanic⟩
  · intro out err h
    cases hc : aesNewCipher o.key with
    | some e2 => rw [hbad e2 hc] at h; simp at h
    | none =>
      by_cases hiv : o.iv.length = 16
      · obtain ⟨out2, h2⟩ := hgood hc hiv
        rw [h2] at h; simp at h
      · rw [hpanic hc hiv] at h; simp at h
  · intro hcond
    cases hc : aesNewCipher o.key with
    | some e2 => exact Or.inr ⟨e2, by rw [hbad e2 hc]⟩
    | none =>
      rcases hcond with hiv | hk
      · exact Or.inl (hgood hc hiv)
      · exact absurd hc hk
  · intro enc err he
    exact ObfuscatePayload_of_error o E rng payload enc err he

/-- C15, evaluated: a 31-byte key gives the key-size error and leaves the
random reader as it was. -/
theorem ObfuscatePayload_result_or_error_witness :
    ((⟨List.replicate 31 1, List.replicate 16 2⟩ : Obfuscator).encryptPayload xorBlock [9]
      = Run.ret (none, some (GoError.keySizeError 31))) ∧
    (⟨List.replicate 31 1, List.replicate 16 2⟩ : Obfuscator).ObfuscatePayload xorBlock
        [List.replicate 16 5] [9]
      = (Run.ret (none, some (GoError.keySizeError 31)), [List.replicate 16 5]) :=
  ⟨by decide,
   (ObfuscatePayload_result_or_error ⟨List.replicate 31 1, List.replicate 16 2⟩ xorBlock
      [List.replicate 16 5] [9]).2.2.1 none (GoError.keySizeError 31) (by decide)⟩

theorem NewObfuscator_some (rng rng2 : RandReader) (o : Obfuscator) (e : Option GoError)
    (h : NewObfuscator rng = ((some o, e), rng2)) :
    o.key.length = 32 ∧ o.iv.length = 16 := by
  unfold NewObfuscator at h
  simp only at h
  split at h
  · simp at h
  · split at h
    · simp at h
    · simp only [Prod.mk.injEq, Option.some.injEq] at h
      obtain ⟨⟨ho, _⟩, _⟩ := h
      subst ho
      simp [readFull_length, aesBlockSize]

/-- C17. For every obfuscator returned by a successful `NewObfuscator` and
every payload, `encryptPayload` meets the preconditions of the CBC encrypter:
the key is accepted by `aes.NewCipher`, the IV is one AES block (16 bytes)
long, the input handed to `CryptBlocks` is a whole number of blocks, and the
destination buffer is exactly as long as the input; so neither `CryptBlocks`
nor `encryptPayload` panics. -/
theorem NewObfuscator_no_panic (rng rng2 : RandReader) (o : Obfuscator) (E : BlockFn)
    (payload : Bytes) (h : NewObfuscator rng = ((some o, none), rng2)) :
    aesNewCipher o.key = none ∧
    o.iv.length = aesBlockSize ∧
    ∃ padded : Bytes,
      o.pkcs7Padding payload aesBlockSize = Run.ret padded ∧
      padded.length % aesBlockSize = 0 ∧
      (List.replicate padded.length 0).length = padded.length ∧
      cryptBlocks E o.key o.iv (List.replicate padded.length 0) padded ≠ Run.panic ∧
      o.encryptPayload E payload ≠ Run.panic ∧
      ∃ enc, o.encryptPayload E payload = Run.ret (some enc, none) := by
  obtain ⟨hk, hiv⟩ := NewObfuscator_some rng rng2 o none h
  have hm : (payload ++ List.replicate (16 - payload.length % 16)
      (16 - payload.length % 16)).length % 16 = 0 := by
    simp only [List.length_append, List.length_replicate]; omega
  obtain ⟨enc, he, _⟩ := encryptPayload_ok o E payload (Or.inr (Or.inr hk)) hiv
  refine ⟨aesNewCipher_ok _ (Or.inr (Or.inr hk)), hiv, _, pkcs7Padding_eq o payload, hm,
    List.length_replicate _ _, ?_, ?_, enc, he⟩
  · unfold cryptBlocks
    simp only [aesBlockSize, hm, List.length_replicate, ne_eq, not_true_eq_false, if_false,
      lt_self_iff_false]
    simp
  · rw [he]; simp

/-- C17, evaluated: the obfuscator made from two full draws encrypts a
payload of five bytes without panic. -/
theorem NewObfuscator_no_panic_witness :
    NewObfuscator [List.replicate 32 9, List.replicate 16 8]
      = ((some ⟨List.replicate 32 9, List.replicate 16 8⟩, none), []) ∧
    (⟨List.replicate 32 9, List.replicate 16 8⟩ : Obfuscator).encryptPayload xorBlock
        [1, 2, 3, 4, 5] ≠ Run.panic :=
    by
  obtain ⟨_, _, _, _, _, _, _, h, _⟩ :=
    NewObfuscator_no_panic [List.replicate 32 9, List.replicate 16 8] []
      ⟨List.replicate 32 9, List.replicate 16 8⟩ xorBlock [1, 2, 3, 4, 5] (by decide)
  exact ⟨by decide, h⟩

/-! ### The pattern detector -/

theorem afterCalls_patterns (payloads : List Bytes) :
    ∀ pa : ProtocolAnalyzer, (pa.afterCalls payloads).patterns = pa.patterns := by
  induction payloads with
  | nil => intro pa; rfl
  | cons p rest ih =>
    intro pa
    have h : pa.afterCalls (p :: rest) = (pa.callAnalyzePayload p).1.afterCalls rest := rfl
    rw [h, ih]
    rfl

/-- C18. A call of `AnalyzePayload` leaves the stored pattern list of the
analyzer as it was, for every payload; so after any sequence of
`AnalyzePayload` calls on an analyzer made by `NewProtocolAnalyzer` the stored
list is still empty, and `ExportPatterns` serialises the empty list. -/
theorem AnalyzePayload_keeps_patterns (pa : ProtocolAnalyzer) (payload : Bytes)
    (payloads : List Bytes)
    (marshal : List ProtocolPattern → Option Bytes × Option GoError) :
    (pa.callAnalyzePayload payload).1.patterns = pa.patterns ∧
    (pa.afterCalls payloads).patterns = pa.patterns ∧
    (NewProtocolAnalyzer.afterCalls payloads).patterns = [] ∧
    (NewProtocolAnalyzer.afterCalls payloads).ExportPatterns marshal = marshal [] := by
  refine ⟨rfl, afterCalls_patterns payloads pa, afterCalls_patterns payloads _, ?_⟩
  unfold ProtocolAnalyzer.ExportPatterns
  rw [afterCalls_patterns payloads NewProtocolAnalyzer]
  rfl

/-- C18, evaluated: a call returns one header pattern, and the stored list
after two calls is empty. -/
theorem AnalyzePayload_keeps_patterns_witness :
    (NewProtocolAnalyzer.callAnalyzePayload [1, 2, 3, 4]).2
      = Run.ret [⟨0, 4, "header", [1, 2, 3, 4]⟩] ∧
    (NewProtocolAnalyzer.afterCalls [[1, 2, 3, 4], [44]]).patterns = [] :=
  ⟨by decide,
   (AnalyzePayload_keeps_patterns NewProtocolAnalyzer [] [[1, 2, 3, 4], [44]]
      (fun _ => (none, none))).2.2.1⟩

theorem getD_lt_256 (l : Bytes) (h : ∀ b ∈ l, b < 256) (i : Nat) : l.getD i 0 < 256 := by
  rw [List.getD_eq_getElem?_getD]
  cases hi : l[i]? with
  | none => simp
  | some x => exact h x (List.getElem?_mem hi)

theorem beUint16_value (a b : Nat) (ha : a < 256) (hb : b < 256) :
    (b ||| (a <<< 8)) % 2 ^ 16 = a * 256 + b := by
  have hb8 : b < 2 ^ 8 := by omega
  rw [Nat.lor_comm, Nat.shiftLeft_eq, Nat.mul_comm a (2 ^ 8), ← Nat.mul_add_lt_is_or hb8 a]
  omega

theorem detectHeaders_eq (pa : ProtocolAnalyzer) (payload : Bytes) :
    pa.detectHeaders payload
      = Run.ret (if 4 ≤ payload.length then [⟨0, 4, "header", payload.take 4⟩] else []) := by
  unfold ProtocolAnalyzer.detectHeaders
  by_cases h : 4 ≤ payload.length
  · have hs : sliceChecked payload 0 4 = Run.ret (payload.take 4) := by
      simp [sliceChecked, subslice, h]
    simp only [ge_iff_le, h, if_true, hs, List.nil_append]
  · simp only [ge_iff_le, h, if_false]

theorem detectLengthFields_eq (pa : ProtocolAnalyzer) (payload : Bytes)
    (hbytes : ∀ b ∈ payload, b < 256) :
    pa.detectLengthFields payload
      = Run.ret (if 6 ≤ payload.length
            ∧ payload.getD 4 0 * 256 + payload.getD 5 0 = payload.length - 6
          then [⟨4, 2, "length_field", (payload.drop 4).take 2⟩] else []) := by
  unfold ProtocolAnalyzer.detectLengthFields
  by_cases h : 6 ≤ payload.length
  · have hs : sliceChecked payload 4 6 = Run.ret ((payload.drop 4).take 2) := by
      simp [sliceChecked, subslice, h]
    have hl : ¬ ((payload.drop 4).take 2).length < 2 := by
      simp; omega
    have g0 : ((payload.drop 4).take 2).getD 0 0 = payload.getD 4 0 := by
      simp [List.getD_eq_getElem?_getD, List.getElem?_take, List.getElem?_drop]
    have g1 : ((payload.drop 4).take 2).getD 1 0 = payload.getD 5 0 := by
      simp [List.getD_eq_getElem?_getD, List.getElem?_take, List.getElem?_drop]
    have hv : beUint16 ((payload.drop 4).take 2)
        = Run.ret (payload.getD 4 0 * 256 + payload.getD 5 0) := by
      unfold beUint16
      rw [if_neg hl, g0, g1,
        beUint16_value _ _ (getD_lt_256 _ hbytes 4) (getD_lt_256 _ hbytes 5)]
    simp only [ge_iff_le, h, if_true, hs, hv, true_and, List.nil_append]
    split <;> rfl
  · simp only [ge_iff_le, h, if_false, false_and]

theorem delimiters_foldl (i b : Nat) (acc : List ProtocolPattern) :
    delimiters.foldl
        (fun patterns delimiter =>
          if b = delimiter then
            patterns ++ [{ Offset := i, Length := 1, PatternType := "delimiter",
                           Value := [delimiter] }]
          else patterns)
        acc
      = if isDelimiter b then acc ++ [⟨i, 1, "delimiter", [b]⟩] else acc := by
  simp only [delimiters, List.foldl, isDelimiter]
  by_cases h1 : b = 44
  · subst h1; simp
  · by_cases h2 : b = 124
    · subst h2; simp
    · by_cases h3 : b = 10
      · subst h3; simp
      · by_cases h4 : b = 13
        · subst h4; simp
        · simp [h1, h2, h3, h4]

theorem detectDelimiters_loop :
    ∀ (l : Bytes) (k : Nat) (acc : List ProtocolPattern),
      (l.enumFrom k).foldl
          (fun patterns ib =>
            delimiters.foldl
              (fun patterns delimiter =>
                if ib.2 = delimiter then
                  patterns ++ [{ Offset := ib.1, Length := 1, PatternType := "delimiter",
                                 Value := [delimiter] }]
                else patterns)
              patterns)
          acc
        = acc ++ ((l.enumFrom k).filter (fun p => isDelimiter p.2)).map
            (fun p => ⟨p.1, 1, "delimiter", [p.2]⟩) := by
  intro l
  induction l with
  | nil => intro k acc; simp
  | cons b rest ih =>
    intro k acc
    rw [List.enumFrom_cons, List.foldl_cons, delimiters_foldl, ih]
    by_cases hb : isDelimiter b = true
    · simp [hb, List.filter_cons]
    · simp [hb, List.filter_cons]

theorem detectDelimiters_eq (pa : ProtocolAnalyzer) (payload : Bytes) :
    pa.detectDelimiters payload
      = (payload.enum.filter (fun p => isDelimiter p.2)).map
          (fun p => ⟨p.1, 1, "delimiter", [p.2]⟩) := by
  unfold ProtocolAnalyzer.detectDelimiters
  rw [List.enum, detectDelimiters_loop]
  simp

/-- C19. For every payload (a list of bytes), `AnalyzePayload` returns, without
any index out of bounds, in this order: one `header` record (offset 0, length
4, value the first 4 bytes) if and only if `len(payload) >= 4`; then one
`length_field` record (offset 4, length 2) if and only if `len(payload) >= 6`
and the big-endian 16-bit value of bytes 4 and 5 equals `len(payload) - 6`;
then one `delimiter` record of length 1 for each index `i` whose byte is one of
`,` `|` `\n` `\r`, with offset `i` and value that byte, the offsets strictly
increasing. -/
theorem AnalyzePayload_patterns (pa : ProtocolAnalyzer) (payload : Bytes)
    (hbytes : ∀ b ∈ payload, b < 256) :
    pa.AnalyzePayload payload
      = Run.ret (
          (if 4 ≤ payload.length then [⟨0, 4, "header", payload.take 4⟩] else []) ++
          (if 6 ≤ payload.length
              ∧ payload.getD 4 0 * 256 + payload.getD 5 0 = payload.length - 6
            then [⟨4, 2, "length_field", (payload.drop 4).take 2⟩] else []) ++
          (payload.enum.filter (fun p => isDelimiter p.2)).map
            (fun p => ⟨p.1, 1, "delimiter", [p.2]⟩)) ∧
    (∀ p ∈ payload.enum.filter (fun p => isDelimiter p.2),
      payload[p.1]? = some p.2 ∧ (p.2 = 44 ∨ p.2 = 124 ∨ p.2 = 10 ∨ p.2 = 13)) ∧
    (∀ i b, payload[i]? = some b → (b = 44 ∨ b = 124 ∨ b = 10 ∨ b = 13) →
      (i, b) ∈ payload.enum.filter (fun p => isDelimiter p.2)) ∧
    ((payload.enum.filter (fun p => isDelimiter p.2)).map Prod.fst).Pairwise (· < ·) := by
  refine ⟨?_, ?_, ?_, ?_⟩
  · unfold ProtocolAnalyzer.AnalyzePayload
    rw [detectHeaders_eq, detectLengthFields_eq pa payload hbytes, detectDelimiters_eq]
    simp only [List.nil_append]
  · intro p hp
    rw [List.mem_filter] at hp
    refine ⟨List.mem_enum_iff_getElem?.mp hp.1, ?_⟩
    have := hp.2
    simp only [isDelimiter, Bool.or_eq_true, decide_eq_true_eq] at this
    tauto
  · intro i b hi hb
    rw [List.mem_filter]
    refine ⟨List.mem_enum_iff_getElem?.mpr hi, ?_⟩
    simp only [isDelimiter, Bool.or_eq_true, decide_eq_true_eq]
    tauto
  · have hsub : ((payload.enum.filter (fun p => isDelimiter p.2)).map Prod.fst).Sublist
        (payload.enum.map Prod.fst) := (List.filter_sublist _).map _
    rw [List.enum_map_fst] at hsub
    exact (List.pairwise_lt_range _).sublist hsub

/-- C19, evaluated: an 8-byte payload with a header, a matching length field
and three delimiters, and a 3-byte payload with one delimiter only. -/
theorem AnalyzePayload_patterns_witness :
    (∀ b ∈ ([65, 66, 44, 68, 0, 2, 10, 124] : Bytes), b < 256) ∧
    NewProtocolAnalyzer.AnalyzePayload [65, 66, 44, 68, 0, 2, 10, 124]
      = Run.ret [⟨0, 4, "header", [65, 66, 44, 68]⟩, ⟨4, 2, "length_field", [0, 2]⟩,
          ⟨2, 1, "delimiter", [44]⟩, ⟨6, 1, "delimiter", [10]⟩, ⟨7, 1, "delimiter", [124]⟩] ∧
    NewProtocolAnalyzer.AnalyzePayload [13, 1, 2] = Run.ret [⟨0, 1, "delimiter", [13]⟩] ∧
    NewProtocolAnalyzer.AnalyzePayload [65, 66, 44, 68, 0, 2, 10, 124]
      = Run.ret (
          (if 4 ≤ ([65, 66, 44, 68, 0, 2, 10, 124] : Bytes).length
            then [⟨0, 4, "header", ([65, 66, 44, 68, 0, 2, 10, 124] : Bytes).take 4⟩] else []) ++
          (if 6 ≤ ([65, 66, 44, 68, 0, 2, 10, 124] : Bytes).length
              ∧ ([65, 66, 44, 68, 0, 2, 10, 124] : Bytes).getD 4 0 * 256
                  + ([65, 66, 44, 68, 0, 2, 10, 124] : Bytes).getD 5 0
                = ([65, 66, 44, 68, 0, 2, 10, 124] : Bytes).length - 6
            then [⟨4, 2, "length_field",
              (([65, 66, 44, 68, 0, 2, 10, 124] : Bytes).drop 4).take 2⟩] else []) ++
          (([65, 66, 44, 68, 0, 2, 10, 124] : Bytes).enum.filter
              (fun p => isDelimiter p.2)).map
            (fun p => ⟨p.1, 1, "delimiter", [p.2]⟩)) :=
  ⟨by decide, by decide, by decide,
   (AnalyzePayload_patterns NewProtocolAnalyzer [65, 66, 44, 68, 0, 2, 10, 124] (by decide)).1⟩

/-! ### The instance in memory -/

theorem Mem.read_length (m : Mem) (s : GoSlice) (h : m.wf s) : (m.read s).length = s.len := by
  obtain ⟨_, h2, h3⟩ := h
  simp only [Mem.read, List.length_take, List.length_drop]
  omega

theorem writeAt_length (arr : Bytes) (pos : Nat) (xs : Bytes) :
    (writeAt arr pos xs).length = arr.length := by
  simp only [writeAt, List.length_append, copyInto_length, List.length_take, List.length_drop]
  omega

theorem writeAt_take (arr : Bytes) (pos : Nat) (xs : Bytes) :
    (writeAt arr pos xs).take pos = arr.take pos := by
  unfold writeAt
  by_cases h : pos ≤ arr.length
  · exact List.take_left' (by simp; omega)
  · have h0 : arr.drop pos = [] := List.drop_of_length_le (by omega)
    simp [h0, copyInto]

theorem writeAt_take_le (arr : Bytes) (pos n : Nat) (xs : Bytes) (h : n ≤ pos) :
    (writeAt arr pos xs).take n = arr.take n := by
  have e : ∀ l : Bytes, l.take n = (l.take pos).take n := by
    intro l; rw [List.take_take, Nat.min_eq_left h]
  rw [e (writeAt arr pos xs), writeAt_take, ← e]

theorem writeAt_window (arr : Bytes) (off len : Nat) (xs : Bytes)
    (h : off + len + xs.length ≤ arr.length) :
    ((writeAt arr (off + len) xs).drop off).take (len + xs.length)
      = (arr.drop off).take len ++ xs := by
  have hx : xs.take (arr.drop (off + len)).length = xs :=
    List.take_of_length_le (by simp; omega)
  have hA : ((arr.drop off).take len).length = len := by simp; omega
  unfold writeAt copyInto
  rw [hx, List.drop_append_of_le_length (by simp; omega), ← List.take_drop, ← List.append_assoc]
  exact List.take_left' (by simp [hA])

theorem Mem.getD_set (m : Mem) (i j : Nat) (v : Bytes) :
    (m.set i v).getD j [] = if j = i ∧ i < m.length then v else m.getD j [] := by
  simp only [List.getD_eq_getElem?_getD, List.getElem?_set]
  by_cases hji : i = j
  · subst hji
    by_cases hl : i < m.length
    · simp [hl]
    · have hn : m[i]? = none := List.getElem?_eq_none (by omega)
      simp [hl, hn]
  · have : ¬ j = i := fun h => hji h.symm
    simp [hji, this]

theorem Mem.getD_push (m : Mem) (j : Nat) (v : Bytes) (h : j < m.length) :
    (m ++ [v]).getD j [] = m.getD j [] := by
  simp [List.getD_eq_getElem?_getD, List.getElem?_append_left h]

theorem Mem.getD_push_new (m : Mem) (v : Bytes) : (m ++ [v]).getD m.length [] = v := by
  simp [List.getD_eq_getElem?_getD]

theorem Mem.append_read (m : Mem) (p : GoSlice) (xs : Bytes) (hp : m.wf p) :
    (m.append p xs).1.read (m.append p xs).2 = m.read p ++ xs := by
  obtain ⟨h1, h2, h3⟩ := hp
  unfold Mem.append
  by_cases hc : p.len + xs.length ≤ p.cap
  · rw [if_pos hc]
    simp only [Mem.read, Mem.getD_set, h1, and_self, if_true]
    exact writeAt_window _ _ _ _ (by omega)
  · rw [if_neg hc]
    simp only [Mem.read, Mem.getD_push_new, List.drop_zero]
    apply List.take_of_length_le
    have := Mem.read_length m p ⟨h1, h2, h3⟩
    simp only [Mem.read] at this
    simp [this]

theorem Mem.append_keep (m : Mem) (p s : GoSlice) (xs : Bytes) (hs : m.wf s)
    (h : s.arr ≠ p.arr ∨ p.cap < p.len + xs.length ∨ s.off + s.len ≤ p.off + p.len) :
    (m.append p xs).1.read s = m.read s := by
  unfold Mem.append
  by_cases hc : p.len + xs.length ≤ p.cap
  · rw [if_pos hc]
    simp only [Mem.read, Mem.getD_set]
    by_cases ha : s.arr = p.arr
    · have hle : s.off + s.len ≤ p.off + p.len := by
        rcases h with h | h | h
        · exact absurd ha h
        · omega
        · exact h
      by_cases hl : p.arr < m.length
      · rw [if_pos ⟨ha, hl⟩, List.take_drop, List.take_drop, writeAt_take_le _ _ _ _ hle, ha]
      · rw [if_neg (fun hh => hl hh.2)]
    · rw [if_neg (fun hh => ha hh.1)]
  · rw [if_neg hc]
    simp only [Mem.read, Mem.getD_push m s.arr _ hs.1]

theorem Mem.append_wf (m : Mem) (p s : GoSlice) (xs : Bytes) (hs : m.wf s) :
    (m.append p xs).1.wf s := by
  obtain ⟨h1, h2, h3⟩ := hs
  unfold Mem.append
  by_cases hc : p.len + xs.length ≤ p.cap
  · rw [if_pos hc]
    refine ⟨by simpa using h1, ?_, h3⟩
    simp only [Mem.getD_set]
    split
    · next hh => rw [writeAt_length, ← hh.1]; exact h2
    · exact h2
  · rw [if_neg hc]
    refine ⟨by simp; omega, ?_, h3⟩
    simp only [Mem.getD_push m s.arr _ h1]
    exact h2

theorem Mem.append_len (m : Mem) (p : GoSlice) (xs : Bytes) :
    (m.append p xs).2.len = p.len + xs.length := by
  unfold Mem.append
  split <;> rfl

theorem pkcs7PaddingMem_eq (o : ObfuscatorRef) (m : Mem) (p : GoSlice) :
    o.pkcs7Padding m p 16
      = ((m.append p (List.replicate (16 - p.len % 16) (16 - p.len % 16))).1,
         Run.ret (m.append p (List.replicate (16 - p.len % 16) (16 - p.len % 16))).2) := by
  have hlt : 16 - p.len % 16 < 256 := by omega
  simp [ObfuscatorRef.pkcs7Padding, Nat.mod_eq_of_lt hlt]

theorem encryptPayloadMem_eq (o : ObfuscatorRef) (E : BlockFn) (m : Mem) (p : GoSlice)
    (hp : m.wf p) :
    o.encryptPayload E m p
      = (if aesNewCipher (m.read o.key) = none ∧ (m.read o.iv).length = 16
          then (m.append p (List.replicate (16 - p.len % 16) (16 - p.len % 16))).1 else m,
         (o.value m).encryptPayload E (m.read p)) := by
  unfold ObfuscatorRef.encryptPayload Obfuscator.encryptPayload
  simp only [ObfuscatorRef.value]
  cases hc : aesNewCipher (m.read o.key) with
  | some err => simp
  | none =>
    by_cases hiv : (m.read o.iv).length = 16
    · have hlen := Mem.read_length m p hp
      have hv := pkcs7Padding_eq ⟨m.read o.key, m.read o.iv⟩ (m.read p)
      rw [hlen] at hv
      simp only [aesBlockSize, hiv, ne_eq, not_true_eq_false, if_false, pkcs7PaddingMem_eq, hv,
        Mem.append_read m p _ hp, Mem.append_len, and_self, if_true, List.length_append,
        hlen, List.length_replicate]
      cases cryptBlocks E (m.read o.key) (m.read o.iv)
          (List.replicate (p.len + (16 - p.len % 16)) 0)
          (m.read p ++ List.replicate (16 - p.len % 16) (16 - p.len % 16)) <;> rfl
    · simp [aesBlockSize, hiv]

theorem ObfuscatePayloadMem_eq (o : ObfuscatorRef) (E : BlockFn) (m : Mem) (rng : RandReader)
    (p : GoSlice) (hp : m.wf p) :
    o.ObfuscatePayload E m rng p
      = (if aesNewCipher (m.read o.key) = none ∧ (m.read o.iv).length = 16
          then (m.append p (List.replicate (16 - p.len % 16) (16 - p.len % 16))).1 else m,
         (o.value m).ObfuscatePayload E rng (m.read p)) := by
  unfold ObfuscatorRef.ObfuscatePayload Obfuscator.ObfuscatePayload
  rw [encryptPayloadMem_eq o E m p hp]
  cases (o.value m).encryptPayload E (m.read p) with
  | panic => rfl
  | diverge => rfl
  | ret a =>
    obtain ⟨enc, err⟩ := a
    cases err with
    | some e => rfl
    | none =>
      simp only []
      cases hs : Obfuscator.splitIntoChunks (o.value m)
          ((o.value m).addJitterData rng (enc.getD [])).1 128 with
      | panic =>
        have hs2 : ∀ o2 : Obfuscator, Obfuscator.splitIntoChunks o2
            ((o.value m).addJitterData rng (enc.getD [])).1 128 = Run.panic := fun _ => hs
        simp only [Obfuscator.addJitterData] at hs2 ⊢
        simp only [hs2]
      | diverge =>
        have hs2 : ∀ o2 : Obfuscator, Obfuscator.splitIntoChunks o2
            ((o.value m).addJitterData rng (enc.getD [])).1 128 = Run.diverge := fun _ => hs
        simp only [Obfuscator.addJitterData] at hs2 ⊢
        simp only [hs2]
      | ret chunks =>
        have hs2 : ∀ o2 : Obfuscator, Obfuscator.splitIntoChunks o2
            ((o.value m).addJitterData rng (enc.getD [])).1 128 = Run.ret chunks := fun _ => hs
        simp only [Obfuscator.addJitterData] at hs2 ⊢
        simp only [hs2]
        rfl

theorem ObfuscatePayloadMem_keep (o : ObfuscatorRef) (E : BlockFn) (m : Mem) (rng : RandReader)
    (p s : GoSlice) (hp : m.wf p) (hs : m.wf s)
    (h : s.arr ≠ p.arr ∨ p.cap = p.len ∨ s.off + s.len ≤ p.off + p.len) :
    (o.ObfuscatePayload E m rng p).1.read s = m.read s ∧
    (o.ObfuscatePayload E m rng p).1.wf s := by
  rw [ObfuscatePayloadMem_eq o E m rng p hp]
  simp only []
  split
  · refine ⟨Mem.append_keep m p s _ hs ?_, Mem.append_wf m p s _ hs⟩
    rcases h with h | h | h
    · exact Or.inl h
    · refine Or.inr (Or.inl ?_)
      simp only [List.length_replicate]
      omega
    · exact Or.inr (Or.inr h)
  · exact ⟨rfl, hs⟩

/-- C14, counterexample. The payload is the slice `o.key[:16]` of a 32-byte
key, so it has length 16 and capacity 32: the `append` in `pkcs7Padding` writes
its 16 padding bytes of value 16 in place into `o.key[16:32]`. After the call
the key is another one, and with a block function that depends on the whole
key a second call with the same payload gives other encrypted bytes. -/
theorem ObfuscatePayload_overwrites_key :
    Mem.read [List.replicate 32 1, List.replicate 16 2] ⟨0, 0, 32, 32⟩ = List.replicate 32 1 ∧
    Mem.read ((⟨⟨0, 0, 32, 32⟩, ⟨1, 0, 16, 16⟩⟩ : ObfuscatorRef).ObfuscatePayload xorBlockBoth
        [List.replicate 32 1, List.replicate 16 2] [] ⟨0, 0, 16, 32⟩).1 ⟨0, 0, 32, 32⟩
      = List.replicate 16 1 ++ List.replicate 16 16 ∧
    Mem.read ((⟨⟨0, 0, 32, 32⟩, ⟨1, 0, 16, 16⟩⟩ : ObfuscatorRef).ObfuscatePayload xorBlockBoth
        [List.replicate 32 1, List.replicate 16 2] [] ⟨0, 0, 16, 32⟩).1 ⟨0, 0, 32, 32⟩
      ≠ Mem.read [List.replicate 32 1, List.replicate 16 2] ⟨0, 0, 32, 32⟩ ∧
    ((⟨⟨0, 0, 32, 32⟩, ⟨1, 0, 16, 16⟩⟩ : ObfuscatorRef).encryptPayload xorBlockBoth
        [List.replicate 32 1, List.replicate 16 2] ⟨0, 0, 16, 32⟩).2
      ≠ ((⟨⟨0, 0, 32, 32⟩, ⟨1, 0, 16, 16⟩⟩ : ObfuscatorRef).encryptPayload xorBlockBoth
          ((⟨⟨0, 0, 32, 32⟩, ⟨1, 0, 16, 16⟩⟩ : ObfuscatorRef).ObfuscatePayload xorBlockBoth
            [List.replicate 32 1, List.replicate 16 2] [] ⟨0, 0, 16, 32⟩).1
          ⟨0, 0, 16, 32⟩).2 := by
  decide

/-- C14, amended. Let the key, the IV and the payload be well-formed slices,
and let the payload either share its backing array with neither the key nor
the IV, or have no spare capacity. Then a call of `ObfuscatePayload` leaves the
bytes of the key and of the IV as they were. For two calls on the same
instance with the same payload, the second in the memory left by the first,
under any two states of the random reader: either both calls end in the same
way without output, or both return output, the encrypted bytes are the same,
the two outputs have equal length, and the chunk bytes read back from them
(frame lengths and markers removed) are `a1 ++ enc ++ a2` and `b1 ++ enc ++ b2`
with 16-byte `a1`, `a2`, `b1`, `b2`: they differ at most in the first 16 and
the last 16 bytes of the jittered blob. -/
theorem ObfuscatePayload_repeatable (o : ObfuscatorRef) (E : BlockFn) (m : Mem)
    (rngA rngB : RandReader) (payload : GoSlice)
    (hk : m.wf o.key) (hi : m.wf o.iv) (hp : m.wf payload)
    (hsep : (payload.arr ≠ o.key.arr ∧ payload.arr ≠ o.iv.arr) ∨ payload.cap = payload.len) :
    (o.ObfuscatePayload E m rngA payload).1.read o.key = m.read o.key ∧
    (o.ObfuscatePayload E m rngA payload).1.read o.iv = m.read o.iv ∧
    (((o.ObfuscatePayload E m rngA payload).2.1
          = (o.ObfuscatePayload E (o.ObfuscatePayload E m rngA payload).1 rngB payload).2.1 ∧
        ∀ out, (o.ObfuscatePayload E m rngA payload).2.1 ≠ Run.ret (some out, none)) ∨
      ∃ (enc outA outB a1 a2 b1 b2 : Bytes),
        (o.encryptPayload E m payload).2 = Run.ret (some enc, none) ∧
        (o.encryptPayload E (o.ObfuscatePayload E m rngA payload).1 payload).2
          = Run.ret (some enc, none) ∧
        (o.ObfuscatePayload E m rngA payload).2.1 = Run.ret (some outA, none) ∧
        (o.ObfuscatePayload E (o.ObfuscatePayload E m rngA payload).1 rngB payload).2.1
          = Run.ret (some outB, none) ∧
        outA.length = outB.length ∧
        a1.length = 16 ∧ a2.length = 16 ∧ b1.length = 16 ∧ b2.length = 16 ∧
        (decodeFrames outA).map List.flatten = some (a1 ++ enc ++ a2) ∧
        (decodeFrames outB).map List.flatten = some (b1 ++ enc ++ b2)) := by
  have hkey := ObfuscatePayloadMem_keep o E m rngA payload o.key hp hk (by
    rcases hsep with h | h
    · exact Or.inl (fun e => h.1 e.symm)
    · exact Or.inr (Or.inl h))
  have hiv := ObfuscatePayloadMem_keep o E m rngA payload o.iv hp hi (by
    rcases hsep with h | h
    · exact Or.inl (fun e => h.2 e.symm)
    · exact Or.inr (Or.inl h))
  have hpay := ObfuscatePayloadMem_keep o E m rngA payload payload hp hp
    (Or.inr (Or.inr (Nat.le_refl _)))
  refine ⟨hkey.1, hiv.1, ?_⟩
  generalize (o.ObfuscatePayload E m rngA payload).1 = m1 at hkey hiv hpay ⊢
  have hval : o.value m1 = o.value m := by
    simp only [ObfuscatorRef.value, hkey.1, hiv.1]
  have eA : (o.ObfuscatePayload E m rngA payload).2.1
      = ((o.value m).ObfuscatePayload E rngA (m.read payload)).1 := by
    rw [ObfuscatePayloadMem_eq o E m rngA payload hp]
  have eB : (o.ObfuscatePayload E m1 rngB payload).2.1
      = ((o.value m).ObfuscatePayload E rngB (m.read payload)).1 := by
    rw [ObfuscatePayloadMem_eq o E m1 rngB payload hpay.2, hval, hpay.1]
  have cA : (o.encryptPayload E m payload).2 = (o.value m).encryptPayload E (m.read payload) := by
    rw [encryptPayloadMem_eq o E m payload hp]
  have cB : (o.encryptPayload E m1 payload).2
      = (o.value m).encryptPayload E (m.read payload) := by
    rw [encryptPayloadMem_eq o E m1 payload hpay.2, hval, hpay.1]
  rw [eA, eB, cA, cB]
  rcases ObfuscatePayload_two_draws (o.value m) E rngA rngB (m.read payload) with h | h
  · exact Or.inl h
  · obtain ⟨enc, outA, outB, a1, a2, b1, b2, he, hA, hB, hrest⟩ := h
    exact Or.inr ⟨enc, outA, outB, a1, a2, b1, b2, he, he, hA, hB, hrest⟩

/-- C14, evaluated: a three-byte payload in an array of its own with spare
capacity; the padding is written behind the payload in that array, and the
key and the IV keep their bytes. -/
theorem ObfuscatePayload_repeatable_witness :
    ((⟨⟨0, 0, 32, 32⟩, ⟨1, 0, 16, 16⟩⟩ : ObfuscatorRef).ObfuscatePayload xorBlock
        [List.replicate 32 1, List.replicate 16 2, List.replicate 20 7]
        [List.replicate 16 5, List.replicate 16 6] ⟨2, 0, 3, 20⟩).1
      = [List.replicate 32 1, List.replicate 16 2,
          [7, 7, 7, 13, 13, 13, 13, 13, 13, 13, 13, 13, 13, 13, 13, 13, 7, 7, 7, 7]] ∧
    Mem.read ((⟨⟨0, 0, 32, 32⟩, ⟨1, 0, 16, 16⟩⟩ : ObfuscatorRef).ObfuscatePayload xorBlock
        [List.replicate 32 1, List.replicate 16 2, List.replicate 20 7]
        [List.replicate 16 5, List.replicate 16 6] ⟨2, 0, 3, 20⟩).1 ⟨0, 0, 32, 32⟩
      = Mem.read [List.replicate 32 1, List.replicate 16 2, List.replicate 20 7]
          ⟨0, 0, 32, 32⟩ ∧
    Mem.read ((⟨⟨0, 0, 32, 32⟩, ⟨1, 0, 16, 16⟩⟩ : ObfuscatorRef).ObfuscatePayload xorBlock
        [List.replicate 32 1, List.replicate 16 2, List.replicate 20 7]
        [List.replicate 16 5, List.replicate 16 6] ⟨2, 0, 3, 20⟩).1 ⟨1, 0, 16, 16⟩
      = Mem.read [List.replicate 32 1, List.replicate 16 2, List.replicate 20 7]
          ⟨1, 0, 16, 16⟩ := by
  have h := ObfuscatePayload_repeatable ⟨⟨0, 0, 32, 32⟩, ⟨1, 0, 16, 16⟩⟩ xorBlock
    [List.replicate 32 1, List.replicate 16 2, List.replicate 20 7]
    [List.replicate 16 5, List.replicate 16 6] [List.replicate 16 8, List.replicate 16 9]
    ⟨2, 0, 3, 20⟩ ⟨by decide, by decide, by decide⟩ ⟨by decide, by decide, by decide⟩
    ⟨by decide, by decide, by decide⟩ (Or.inl ⟨by decide, by decide⟩)
  exact ⟨by decide, h.1, h.2.1⟩
